import Mathlib

/-!
Verification development for the tf2_r2r transform-buffer library.

The Rust sources are shallowly embedded: machine integers (i32, u32, i64)
become `Int` (the claims under verification restrict attention to inputs on
which no fixed-width overflow occurs), `Vec` becomes `List`, `HashMap` and
`HashSet` become association lists, and fallible operations return
`Except`/`Option` (`Option.none` marks a source-level panic).  Floating-point
weights are carried exactly as rationals.  The `transforms` module
(`interpolate`, `chain_transforms`, `get_inverse`, `to_transform_stamped`) is
not part of the provided sources; where needed it is modelled from the spec,
with the rigid-transform payload kept as a type parameter.
-/

/-- ns-per-second constant, `BILLION` in `utils.rs`. -/
def BILLION : Int := 1000000000

/-- `builtin_interfaces::msg::Time`: `sec : i32`, `nanosec : u32`. -/
structure Time where
  sec : Int
  nanosec : Int
deriving DecidableEq, Repr

/-- `builtin_interfaces::msg::Duration`: `sec : i32`, `nanosec : u32`. -/
structure Duration where
  sec : Int
  nanosec : Int
deriving DecidableEq, Repr

/-- `utils::time_from_nanosec` (Rust `/` and `%` on i64 truncate toward zero). -/
def time_from_nanosec (t : Int) : Time :=
  { sec := t.tdiv BILLION, nanosec := t.tmod BILLION }

/-- `utils::sub_time_and_time`: documented in the source as `target - delta`. -/
def sub_time_and_time (target : Time) (delta : Time) : Duration :=
  if 0 < delta.sec then
    if delta.nanosec ≤ target.nanosec then
      { sec := target.sec - delta.sec, nanosec := target.nanosec - delta.nanosec }
    else
      { sec := target.sec - delta.sec - 1,
        nanosec := BILLION + target.nanosec - delta.nanosec }
  else
    let nanosec := target.nanosec + delta.nanosec
    let sec := target.sec - delta.sec + nanosec.tdiv BILLION
    { sec := sec, nanosec := nanosec.tmod BILLION }

/-- `utils::add_time_and_duration`. -/
def add_time_and_duration (t : Time) (d : Duration) : Time :=
  let sec := t.sec + d.sec
  let nanosec := t.nanosec + d.nanosec
  { sec := sec + nanosec.tdiv BILLION, nanosec := nanosec.tmod BILLION }

/-- `utils::sub_duration_from_time`. -/
def sub_duration_from_time (t : Time) (d : Duration) : Time :=
  let sec := t.sec - d.sec
  let nanosec := t.nanosec - d.nanosec
  if nanosec < 0 then { sec := sec - 1, nanosec := nanosec + BILLION }
  else { sec := sec, nanosec := nanosec }

/-- `utils::time_as_ns_i64`. -/
def time_as_ns_i64 (t : Time) : Int :=
  t.sec * BILLION + t.nanosec

/-- ns-equivalent of a `Duration`; `get_nanos` in `tf_individual_transform_chain.rs`. -/
def get_nanos (d : Duration) : Int :=
  d.sec * BILLION + d.nanosec

/-- `utils::is_time_in_range_eq`. -/
def is_time_in_range_eq (target min max : Time) : Bool :=
  decide (time_as_ns_i64 min ≤ time_as_ns_i64 target) &&
    decide (time_as_ns_i64 target ≤ time_as_ns_i64 max)

/-- `utils::is_time_later`. -/
def is_time_later (target past : Time) : Bool :=
  decide (time_as_ns_i64 past < time_as_ns_i64 target)

/-! ## Rust `slice::binary_search_by`

The comparator in `binary_search_time` is
`element ↦ ns(element.stamp).cmp(ns(time))`; `Greater` at index `mid` means
`target < key mid`.  The loop is modelled with an explicit fuel argument so
that it is structurally recursive and kernel-computable; every call site
supplies fuel at least the window size, which the lemmas show is enough. -/

/-- The std `binary_search_by` main loop (post-1.64 shape, no early exit). -/
def bsLoop (keys : List Int) (target : Int) : Nat → Nat → Nat → Nat
  | 0, base, _ => base
  | fuel + 1, base, size =>
    if 1 < size then
      let half := size / 2
      let mid := base + half
      if target < keys.getD mid 0 then bsLoop keys target fuel base (size - half)
      else bsLoop keys target fuel mid (size - half)
    else base

/-- `slice::binary_search_by` with the ns comparator: `.ok` = found index,
`.error` = insertion index. -/
def rust_binary_search (keys : List Int) (target : Int) : Except Nat Nat :=
  if keys.length = 0 then .error 0
  else
    let base := bsLoop keys target keys.length 0 keys.length
    let k := keys.getD base 0
    if k = target then .ok base
    else if k < target then .error (base + 1)
    else .error base

/-- Keys sorted (non-strictly) ascending. -/
def keysSorted (keys : List Int) : Prop :=
  keys.Pairwise (· ≤ ·)

/-! ## Data model

`geometry_msgs::msg::TransformStamped` with the rigid-transform payload kept
as a type parameter `T`; the claims either treat the payload abstractly
(through `TransformOps`) or instantiate it with the exact rational model of
§4.2 of the spec. -/

deriving instance DecidableEq for Except

/-- `std_msgs::msg::Header` (frame id and stamp). -/
structure Header where
  frame_id : String
  stamp : Time
deriving DecidableEq, Repr

/-- `geometry_msgs::msg::TransformStamped` with payload type `T`. -/
structure TransformStamped (T : Type) where
  header : Header
  child_frame_id : String
  transform : T
deriving DecidableEq, Repr

/-- `tf_error::TfError` (the payloads mirror the source: boxed stamped
transforms and a snapshot of the child-frame index). -/
inductive TfError (T : Type) where
  | AttemptedLookupInPast (t : Time) (tf : TransformStamped T)
  | AttemptedLookUpInFuture (tf : TransformStamped T) (t : Time)
  | CouldNotFindTransform (from_frame : String) (to_frame : String)
      (index : List (String × List String))
  | CouldNotAcquireLock
deriving DecidableEq, Repr

/-- Operations of the `transforms` module, kept abstract over the payload.
Modelled from the spec: the module itself is not among the provided sources;
§4.2 fixes `identity`, `compose`, `inverse` and `interpolate` (whose weight
the source computes as an `f64`; it is carried here exactly as a rational). -/
structure TransformOps (T : Type) where
  identity : T
  compose : T → T → T
  inverse : T → T
  interpolate : T → T → ℚ → T

/-- Modelled from the spec: `transforms::to_transform_stamped` builds a
stamped transform from a payload, the two frame ids and a stamp. -/
def to_transform_stamped {T : Type} (tf : T) (frame_id child_frame_id : String)
    (time : Time) : TransformStamped T :=
  { header := { frame_id := frame_id, stamp := time },
    child_frame_id := child_frame_id, transform := tf }

/-- Modelled from the spec: `transforms::get_inverse` swaps the frame ids,
keeps the stamp and inverts the payload (§4.2). -/
def get_inverse {T : Type} (ops : TransformOps T) (t : TransformStamped T) :
    TransformStamped T :=
  { header := { frame_id := t.child_frame_id, stamp := t.header.stamp },
    child_frame_id := t.header.frame_id,
    transform := ops.inverse t.transform }

/-- Modelled from the spec: `transforms::chain_transforms` left-folds
`compose` over the sequence starting from the identity (§4.2). -/
def chain_transforms {T : Type} (ops : TransformOps T) (l : List T) : T :=
  l.foldl ops.compose ops.identity

/-! ## `TfIndividualTransformChain` -/

/-- `tf_individual_transform_chain::TfIndividualTransformChain`. -/
structure TfIndividualTransformChain (T : Type) where
  cache_duration : Duration
  static_tf : Bool
  transform_chain : List (TransformStamped T)
deriving DecidableEq, Repr

/-- `TfIndividualTransformChain::new`. -/
def TfIndividualTransformChain.new (T : Type) (static_tf : Bool)
    (cache_duration : Duration) : TfIndividualTransformChain T :=
  { cache_duration := cache_duration, static_tf := static_tf, transform_chain := [] }

/-- ns-equivalents of the stamps of a chain, in storage order. -/
def chainKeys {T : Type} (l : List (TransformStamped T)) : List Int :=
  l.map fun e => time_as_ns_i64 e.header.stamp

/-- `binary_search_time` from `tf_individual_transform_chain.rs`. -/
def binary_search_time {T : Type} (chain : List (TransformStamped T)) (time : Time) :
    Except Nat Nat :=
  rust_binary_search (chainKeys chain) (time_as_ns_i64 time)

/-- `Result::unwrap_or_else(|index| index)` on a binary-search result. -/
def bs_index : Except Nat Nat → Nat
  | .ok i => i
  | .error i => i

/-- `TfIndividualTransformChain::newest_stamp`. -/
def newest_stamp {T : Type} (c : TfIndividualTransformChain T) : Option Time :=
  c.transform_chain.getLast?.map fun x => x.header.stamp

/-- `TfIndividualTransformChain::add_to_buffer`: insert at the binary-search
index, then drop the prefix older than `newest_stamp - cache_duration`
whenever the newest stamp exceeds the cache duration. -/
def add_to_buffer {T : Type} (c : TfIndividualTransformChain T)
    (msg : TransformStamped T) : TfIndividualTransformChain T :=
  let index := bs_index (binary_search_time c.transform_chain msg.header.stamp)
  let inserted := c.transform_chain.insertIdx index msg
  match inserted.getLast? with
  | none => { c with transform_chain := inserted }
  | some last_elem =>
    if is_time_later last_elem.header.stamp
        (add_time_and_duration (time_from_nanosec 0) c.cache_duration) then
      let time_to_keep := sub_duration_from_time last_elem.header.stamp c.cache_duration
      let index2 := bs_index (binary_search_time inserted time_to_keep)
      { c with transform_chain := inserted.drop index2 }
    else { c with transform_chain := inserted }

/-- `TfIndividualTransformChain::get_closest_transform`; `none` marks the
source-level `unwrap` panics (reached only on an empty history). -/
def get_closest_transform {T : Type} (ops : TransformOps T)
    (c : TfIndividualTransformChain T) (time : Time) :
    Option (Except (TfError T) (TransformStamped T)) :=
  if time_as_ns_i64 time = 0 then
    c.transform_chain.getLast?.map .ok
  else if c.static_tf then
    c.transform_chain.getLast?.map .ok
  else
    match binary_search_time c.transform_chain time with
    | .ok x => (c.transform_chain.get? x).map .ok
    | .error x =>
      if x = 0 then
        c.transform_chain.head?.map fun f =>
          .error (.AttemptedLookupInPast time f)
      else if c.transform_chain.length ≤ x then
        c.transform_chain.getLast?.map fun l =>
          .error (.AttemptedLookUpInFuture l time)
      else
        match c.transform_chain.get? (x - 1), c.transform_chain.get? x with
        | some e1, some e2 =>
          let tf1 := e1.transform
          let tf2 := e2.transform
          let time1 := e1.header.stamp
          let time2 := e2.header.stamp
          let total_duration : ℚ := (get_nanos (sub_time_and_time time2 time1) : ℚ)
          let desired_duration : ℚ := (get_nanos (sub_time_and_time time time1) : ℚ)
          let weight : ℚ := 1 - desired_duration / total_duration
          some (.ok (to_transform_stamped (ops.interpolate tf1 tf2 weight)
            e2.header.frame_id e2.child_frame_id time))
        | _, _ => none

/-- `TfIndividualTransformChain::has_valid_transform`. -/
def has_valid_transform {T : Type} (c : TfIndividualTransformChain T) (time : Time) : Bool :=
  if c.transform_chain.isEmpty then false
  else if c.static_tf then true
  else
    match c.transform_chain.head?, c.transform_chain.getLast? with
    | some first_elem, some last_elem =>
      decide (time_as_ns_i64 time = 0) ||
        is_time_in_range_eq time first_elem.header.stamp last_elem.header.stamp
    | _, _ => false

/-- A chain is sorted when its stamp keys are (non-strictly) ascending. -/
def chainSorted {T : Type} (c : TfIndividualTransformChain T) : Prop :=
  keysSorted (chainKeys c.transform_chain)

/-- A chain is strictly sorted when its stamp keys are strictly ascending. -/
def chainStrictSorted {T : Type} (c : TfIndividualTransformChain T) : Prop :=
  (chainKeys c.transform_chain).Pairwise (· < ·)

instance {T : Type} (c : TfIndividualTransformChain T) : Decidable (chainSorted c) := by
  unfold chainSorted keysSorted
  infer_instance

instance {T : Type} (c : TfIndividualTransformChain T) : Decidable (chainStrictSorted c) := by
  unfold chainStrictSorted
  infer_instance

/-- The chain after insertion, before eviction. -/
def insertedChain {T : Type} (c : TfIndividualTransformChain T)
    (msg : TransformStamped T) : List (TransformStamped T) :=
  c.transform_chain.insertIdx
    (bs_index (binary_search_time c.transform_chain msg.header.stamp)) msg

/-! ## `TfBuffer`

`HashMap` and `HashSet` are modelled as association lists / lists; iteration
order of a `HashSet` is unspecified in the source, so the model fixes one
order, which none of the verified properties depend on. -/

/-- `tf_graph_node::TfGraphNode`. -/
structure TfGraphNode where
  child : String
  parent : String
deriving DecidableEq, Repr

/-- First-match lookup in an association list (`HashMap::get`). -/
def assocGet {κ α : Type} [DecidableEq κ] (m : List (κ × α)) (k : κ) : Option α :=
  (m.find? fun p => p.1 = k).map fun p => p.2

/-- Update-or-append in an association list (`HashMap::insert` /
`Entry::or_insert`-then-mutate). -/
def assocSet {κ α : Type} [DecidableEq κ] : List (κ × α) → κ → α → List (κ × α)
  | [], k, v => [(k, v)]
  | (k0, v0) :: rest, k, v =>
    if k0 = k then (k0, v) :: rest else (k0, v0) :: assocSet rest k v

/-- `HashSet::insert` on the list model. -/
def setInsert (s : List String) (x : String) : List String :=
  if x ∈ s then s else x :: s

/-- `child_transform_index.entry(parent).or_default().insert(child)`. -/
def indexInsertChild (m : List (String × List String)) (p c : String) :
    List (String × List String) :=
  assocSet m p (setInsert ((assocGet m p).getD []) c)

/-- `tf_buffer::TfBuffer`. -/
structure TfBuffer (T : Type) where
  child_transform_index : List (String × List String)
  transform_data : List (TfGraphNode × TfIndividualTransformChain T)
  cache_duration : Duration
deriving Repr

/-- `TfBuffer::new_with_duration`. -/
def TfBuffer.new_with_duration (T : Type) (cache_duration : Duration) : TfBuffer T :=
  { child_transform_index := [], transform_data := [], cache_duration := cache_duration }

/-- `TfBuffer::new` (default cache duration of 10 seconds). -/
def TfBuffer.new (T : Type) : TfBuffer T :=
  TfBuffer.new_with_duration T { sec := 10, nanosec := 0 }

/-- `TfBuffer::add_transform`. -/
def add_transform {T : Type} (buf : TfBuffer T) (tr : TransformStamped T)
    (static_tf : Bool) : TfBuffer T :=
  let idx := indexInsertChild buf.child_transform_index tr.header.frame_id tr.child_frame_id
  let key : TfGraphNode := { child := tr.child_frame_id, parent := tr.header.frame_id }
  let chain := (assocGet buf.transform_data key).getD
    (TfIndividualTransformChain.new T static_tf buf.cache_duration)
  { buf with child_transform_index := idx,
             transform_data := assocSet buf.transform_data key (add_to_buffer chain tr) }

/-- `TfBuffer::handle_incoming_transforms`: each batch element is added
together with its inverse. -/
def handle_incoming_transforms {T : Type} (ops : TransformOps T) (buf : TfBuffer T)
    (transforms : List (TransformStamped T)) (static_tf : Bool) : TfBuffer T :=
  transforms.foldl
    (fun b tr => add_transform (add_transform b tr static_tf) (get_inverse ops tr) static_tf)
    buf

/-- The child set recorded for a frame (`child_transform_index.get`). -/
def childrenOf {T : Type} (buf : TfBuffer T) (f : String) : List String :=
  (assocGet buf.child_transform_index f).getD []

/-- The expansion test of the path search: the edge history for
`(parent, child)` exists and reports valid at the query time. -/
def edgeValidB {T : Type} (buf : TfBuffer T) (time : Time) (parent child : String) : Bool :=
  match assocGet buf.transform_data { child := child, parent := parent } with
  | some chain => has_valid_transform chain time
  | none => false

/-- A directed edge usable by the search: recorded in the child index and
valid at the query time. -/
def validEdge {T : Type} (buf : TfBuffer T) (time : Time) (u v : String) : Bool :=
  decide (v ∈ childrenOf buf u) && edgeValidB buf time u v

/-- `pathOk buf time u p tgt`: `p` is a frame sequence such that successive
pairs (starting from `u`, ending at `tgt`) are valid edges; the empty path
requires `u = tgt`. -/
def pathOk {T : Type} (buf : TfBuffer T) (time : Time) : String → List String → String → Bool
  | u, [], tgt => u == tgt
  | u, v :: rest, tgt => validEdge buf time u v && pathOk buf time v rest tgt

/-- State of the traversal in `retrieve_transform_path`: the work queue
(used LIFO: `push_front`/`pop_front`), the visited set and the
parent-pointer map. -/
structure SearchState where
  frontier : List String
  visited : List String
  parents : List (String × String)
deriving Repr

/-- The inner `for v in children` loop body of `retrieve_transform_path`. -/
def expandChildren {T : Type} (buf : TfBuffer T) (time : Time) (current : String)
    (children : List String) (st : SearchState) : SearchState :=
  children.foldl
    (fun st v =>
      if v ∈ st.visited then st
      else if edgeValidB buf time current v then
        { frontier := v :: st.frontier, visited := v :: st.visited,
          parents := (v, current) :: st.parents }
      else st)
    st

/-- All frame names occurring in the child index. -/
def allNodes {T : Type} (buf : TfBuffer T) : List String :=
  (buf.child_transform_index.map Prod.fst ++
    (buf.child_transform_index.map Prod.snd).flatten).dedup

/-- The `while !frontier.is_empty()` loop of `retrieve_transform_path`,
with fuel (the lemmas show the fuel supplied at the call site is enough). -/
def search_loop {T : Type} (buf : TfBuffer T) (tgt : String) (time : Time) :
    Nat → SearchState → SearchState
  | 0, st => st
  | fuel + 1, st =>
    match st.frontier with
    | [] => st
    | current :: rest =>
      if current = tgt then st
      else
        search_loop buf tgt time fuel
          (expandChildren buf time current (childrenOf buf current)
            { st with frontier := rest })

/-- The reconstruction loop (`while r != from`).  Source builds the path by
`Vec::push` and reverses at the end; the model conses and does not reverse.
Fuel exhaustion (`none`) corresponds to the source looping forever, which
the invariants rule out.  The inner `Option` is `none` when a parent pointer
is missing (`CouldNotFindTransform`). -/
def recon_go (parents : List (String × String)) (fr : String) :
    Nat → String → List String → Option (Option (List String))
  | 0, _, _ => none
  | fuel + 1, r, res =>
    if r = fr then some (some res)
    else
      match assocGet parents r with
      | some u => recon_go parents fr fuel u (r :: res)
      | none => some none

/-- `TfBuffer::retrieve_transform_path`. -/
def retrieve_transform_path {T : Type} (buf : TfBuffer T) (fr tgt : String)
    (time : Time) : Option (Except (TfError T) (List String)) :=
  let st0 : SearchState := { frontier := [fr], visited := [fr], parents := [] }
  let stF := search_loop buf tgt time ((allNodes buf).length + 2) st0
  match recon_go stF.parents fr (stF.parents.length + 1) tgt [] with
  | none => none
  | some none => some (.error (.CouldNotFindTransform fr tgt buf.child_transform_index))
  | some (some res) => some (.ok res)

/-- The per-edge sampling walk of `lookup_transform` (`for intermediate in
path`); `none` marks the source-level `unwrap` panic on a missing edge. -/
def collect_transforms {T : Type} (ops : TransformOps T) (buf : TfBuffer T)
    (time : Time) : String → List String → List T →
    Option (Except (TfError T) (List T))
  | _, [], acc => some (.ok acc)
  | first, intermediate :: rest, acc =>
    match assocGet buf.transform_data { child := intermediate, parent := first } with
    | none => none
    | some chain =>
      match get_closest_transform ops chain time with
      | none => none
      | some (.error e) => some (.error e)
      | some (.ok x) => collect_transforms ops buf time intermediate rest (acc ++ [x.transform])

/-- `TfBuffer::lookup_transform`. -/
def lookup_transform {T : Type} (ops : TransformOps T) (buf : TfBuffer T)
    (fr tgt : String) (time : Time) :
    Option (Except (TfError T) (TransformStamped T)) :=
  match retrieve_transform_path buf fr tgt time with
  | none => none
  | some (.error e) => some (.error e)
  | some (.ok path) =>
    match collect_transforms ops buf time fr path [] with
    | none => none
    | some (.error e) => some (.error e)
    | some (.ok tf_list) =>
      some (.ok { header := { frame_id := fr, stamp := time },
                  child_frame_id := tgt,
                  transform := chain_transforms ops tf_list })

/-- `TfBuffer::lookup_transform_with_time_travel`. -/
def lookup_transform_with_time_travel {T : Type} (ops : TransformOps T)
    (buf : TfBuffer T) (tgt : String) (time2 : Time) (fr : String) (time1 : Time)
    (fixed_frame : String) : Option (Except (TfError T) (TransformStamped T)) :=
  match lookup_transform ops buf fr fixed_frame time1 with
  | none => none
  | some (.error e) => some (.error e)
  | some (.ok tf1) =>
    match lookup_transform ops buf tgt fixed_frame time2 with
    | none => none
    | some (.error e) => some (.error e)
    | some (.ok tf2) =>
      some (.ok (to_transform_stamped
        (chain_transforms ops [tf2.transform, (get_inverse ops tf1).transform])
        fr tgt time1))

/-! ## Exact rational model of the rigid-transform payload

Modelled from the spec (§4.2): the `transforms` module is not among the
provided sources.  Components are exact rationals (the source uses `f64`;
floating-point rounding is not modelled).  Rotation action is
`q · v · q-conjugate`, which agrees with the rotation action of a unit
quaternion. -/

/-- `geometry_msgs::msg::Vector3` over exact rationals. -/
@[ext]
structure Vec3 where
  x : ℚ
  y : ℚ
  z : ℚ
deriving DecidableEq, Repr

/-- `geometry_msgs::msg::Quaternion` over exact rationals. -/
@[ext]
structure Quat where
  x : ℚ
  y : ℚ
  z : ℚ
  w : ℚ
deriving DecidableEq, Repr

/-- Hamilton product. -/
def quat_mul (a b : Quat) : Quat :=
  { x := a.w * b.x + a.x * b.w + a.y * b.z - a.z * b.y,
    y := a.w * b.y - a.x * b.z + a.y * b.w + a.z * b.x,
    z := a.w * b.z + a.x * b.y - a.y * b.x + a.z * b.w,
    w := a.w * b.w - a.x * b.x - a.y * b.y - a.z * b.z }

/-- Conjugate; the inverse for a unit quaternion (§4.2). -/
def quat_conj (q : Quat) : Quat :=
  { x := -q.x, y := -q.y, z := -q.z, w := q.w }

/-- Rotation action of a (unit) quaternion on a vector. -/
def quat_rotate (q : Quat) (v : Vec3) : Vec3 :=
  let p : Quat := { x := v.x, y := v.y, z := v.z, w := 0 }
  let r := quat_mul (quat_mul q p) (quat_conj q)
  { x := r.x, y := r.y, z := r.z }

def vec_add (a b : Vec3) : Vec3 :=
  { x := a.x + b.x, y := a.y + b.y, z := a.z + b.z }

def vec_neg (a : Vec3) : Vec3 :=
  { x := -a.x, y := -a.y, z := -a.z }

/-- Rigid transform: translation plus rotation. -/
@[ext]
structure QTransform where
  translation : Vec3
  rotation : Quat
deriving DecidableEq, Repr

/-- Identity transform: zero translation, quaternion (0,0,0,1) (§3). -/
def qtransform_identity : QTransform :=
  { translation := { x := 0, y := 0, z := 0 },
    rotation := { x := 0, y := 0, z := 0, w := 1 } }

/-- Modelled from the spec (§4.2): `compose(T1, T2)` has quaternion
`q1 * q2` and translation `t1 + q1 · t2`. -/
def qtransform_compose (t1 t2 : QTransform) : QTransform :=
  { translation := vec_add t1.translation (quat_rotate t1.rotation t2.translation),
    rotation := quat_mul t1.rotation t2.rotation }

/-- Modelled from the spec (§4.2): `inverse(T)` conjugates the rotation and
rotates the negated translation by the conjugate. -/
def qtransform_inverse (t : QTransform) : QTransform :=
  { translation := vec_neg (quat_rotate (quat_conj t.rotation) t.translation),
    rotation := quat_conj t.rotation }

/-- Modelled from the spec (§4.2): interpolation with `weight` the weight of
the first transform; only the linear branch of slerp is representable over
the rationals, so the model uses componentwise linear mixing. -/
def qtransform_interpolate (t1 t2 : QTransform) (w : ℚ) : QTransform :=
  { translation := { x := w * t1.translation.x + (1 - w) * t2.translation.x,
                     y := w * t1.translation.y + (1 - w) * t2.translation.y,
                     z := w * t1.translation.z + (1 - w) * t2.translation.z },
    rotation := { x := w * t1.rotation.x + (1 - w) * t2.rotation.x,
                  y := w * t1.rotation.y + (1 - w) * t2.rotation.y,
                  z := w * t1.rotation.z + (1 - w) * t2.rotation.z,
                  w := w * t1.rotation.w + (1 - w) * t2.rotation.w } }

/-- The rational instantiation of the `transforms` module operations. -/
def qOps : TransformOps QTransform :=
  { identity := qtransform_identity,
    compose := qtransform_compose,
    inverse := qtransform_inverse,
    interpolate := qtransform_interpolate }

/-- Unit-norm condition on a quaternion. -/
def unitQuat (q : Quat) : Prop :=
  q.x ^ 2 + q.y ^ 2 + q.z ^ 2 + q.w ^ 2 = 1

/-- Componentwise distance bound between two transforms. -/
def qtransform_within (a b : QTransform) (eps : ℚ) : Prop :=
  |a.translation.x - b.translation.x| ≤ eps ∧
  |a.translation.y - b.translation.y| ≤ eps ∧
  |a.translation.z - b.translation.z| ≤ eps ∧
  |a.rotation.x - b.rotation.x| ≤ eps ∧
  |a.rotation.y - b.rotation.y| ≤ eps ∧
  |a.rotation.z - b.rotation.z| ≤ eps ∧
  |a.rotation.w - b.rotation.w| ≤ eps

/-- Loop invariant of the path search. -/
structure SearchInv {T : Type} (buf : TfBuffer T) (time : Time) (fr : String)
    (st : SearchState) : Prop where
  vis_nodup : st.visited.Nodup
  fr_vis : fr ∈ st.visited
  frontier_sub : ∀ x ∈ st.frontier, x ∈ st.visited
  parents_wf : ∀ pr ∈ st.parents, pr.1 ∈ st.visited ∧ pr.2 ∈ st.visited ∧
    validEdge buf time pr.2 pr.1 = true ∧ pr.1 ≠ fr
  parents_total : ∀ v ∈ st.visited, v ≠ fr → ∃ u, assocGet st.parents v = some u
  parents_rank : ∀ pr ∈ st.parents,
    List.indexOf pr.1 st.visited < List.indexOf pr.2 st.visited
  card_bound : st.visited.length ≤ st.parents.length + 1
  expanded : ∀ u ∈ st.visited, u ∉ st.frontier →
    ∀ v, validEdge buf time u v = true → v ∈ st.visited
  vis_universe : ∀ x ∈ st.visited, x = fr ∨ x ∈ allNodes buf

/-- Termination measure of the search loop. -/
def searchMeasure {T : Type} (buf : TfBuffer T) (st : SearchState) : Nat :=
  ((allNodes buf).toFinset \ st.visited.toFinset).card + st.frontier.length

/-! ## Concrete instantiations used by witnesses and counterexamples -/

/-- Integer payload with addition as composition (used to instantiate the
abstract payload in witnesses). -/
def intOps : TransformOps Int :=
  { identity := 0, compose := fun a b => a + b, inverse := fun a => -a,
    interpolate := fun a _ _ => a }

/-- Rational payload whose interpolation returns the weight itself, exposing
the weight the code computes. -/
def weightProbeOps : TransformOps ℚ :=
  { identity := 0, compose := fun a b => a + b, inverse := fun a => -a,
    interpolate := fun _ _ w => w }

def c1_empty : TfIndividualTransformChain Int :=
  { cache_duration := { sec := 10, nanosec := 0 }, static_tf := false,
    transform_chain := [] }

def c1_s1 : TransformStamped Int :=
  { header := { frame_id := "p", stamp := { sec := 1, nanosec := 0 } },
    child_frame_id := "c", transform := 0 }

def c1_s2 : TransformStamped Int :=
  { header := { frame_id := "p", stamp := { sec := 1, nanosec := 0 } },
    child_frame_id := "c", transform := 1 }

def c7_empty : TfIndividualTransformChain Int :=
  { cache_duration := { sec := 10, nanosec := 0 }, static_tf := true,
    transform_chain := [] }

def c7_sA : TransformStamped Int :=
  { header := { frame_id := "p", stamp := { sec := 2, nanosec := 0 } },
    child_frame_id := "c", transform := 0 }

def c7_sB : TransformStamped Int :=
  { header := { frame_id := "p", stamp := { sec := 1, nanosec := 0 } },
    child_frame_id := "c", transform := 1 }

def c3_e1 : TransformStamped ℚ :=
  { header := { frame_id := "p", stamp := { sec := 0, nanosec := 100000000 } },
    child_frame_id := "c", transform := 0 }

def c3_e2 : TransformStamped ℚ :=
  { header := { frame_id := "p", stamp := { sec := 0, nanosec := 300000000 } },
    child_frame_id := "c", transform := 0 }

def c3_chain : TfIndividualTransformChain ℚ :=
  { cache_duration := { sec := 10, nanosec := 0 }, static_tf := false,
    transform_chain := [c3_e1, c3_e2] }

def c3_t : Time := { sec := 0, nanosec := 200000000 }

def c5_base : TfIndividualTransformChain Int :=
  { cache_duration := { sec := 1, nanosec := 0 }, static_tf := false,
    transform_chain :=
      [ { header := { frame_id := "p", stamp := { sec := 0, nanosec := 0 } },
          child_frame_id := "c", transform := 0 },
        { header := { frame_id := "p", stamp := { sec := 1, nanosec := 0 } },
          child_frame_id := "c", transform := 1 } ] }

def c5_msg : TransformStamped Int :=
  { header := { frame_id := "p", stamp := { sec := 2, nanosec := 0 } },
    child_frame_id := "c", transform := 2 }

def c6_chain : TfIndividualTransformChain Int :=
  { cache_duration := { sec := 10, nanosec := 0 }, static_tf := false,
    transform_chain :=
      [ { header := { frame_id := "p", stamp := { sec := 1, nanosec := 0 } },
          child_frame_id := "c", transform := 10 },
        { header := { frame_id := "p", stamp := { sec := 2, nanosec := 0 } },
          child_frame_id := "c", transform := 20 } ] }

def c4_buf : TfBuffer Int :=
  { child_transform_index := [("a", ["b"])],
    transform_data :=
      [ ( { child := "b", parent := "a" },
          { cache_duration := { sec := 10, nanosec := 0 }, static_tf := true,
            transform_chain :=
              [ { header := { frame_id := "a", stamp := { sec := 1, nanosec := 0 } },
                  child_frame_id := "b", transform := 5 } ] } ) ],
    cache_duration := { sec := 10, nanosec := 0 } }

/-! ## C9: inverse closure of ingestion -/

/-- A directed edge is present: recorded in the parent's child set with an
existing edge history. -/
def edgePresent {T : Type} (buf : TfBuffer T) (p c : String) : Prop :=
  c ∈ childrenOf buf p ∧
    (assocGet buf.transform_data { child := c, parent := p }).isSome = true

def c9_tr : TransformStamped QTransform :=
  { header := { frame_id := "a", stamp := { sec := 1, nanosec := 0 } },
    child_frame_id := "b", transform := qtransform_identity }

/-- `sub_duration_from_time` is ns-exact: its result's ns-equivalent is the
difference of the ns-equivalents (both branches are exact). -/
theorem ns_sub_duration_from_time (t : Time) (d : Duration) :
    time_as_ns_i64 (sub_duration_from_time t d) = time_as_ns_i64 t - get_nanos d := by
  unfold sub_duration_from_time time_as_ns_i64 get_nanos
  by_cases h : t.nanosec - d.nanosec < 0 <;> simp [h] <;> ring

/-- `add_time_and_duration` is ns-exact in the integer model. -/
theorem ns_add_time_and_duration (t : Time) (d : Duration) :
    time_as_ns_i64 (add_time_and_duration t d) = time_as_ns_i64 t + get_nanos d := by
  unfold add_time_and_duration time_as_ns_i64 get_nanos
  have h := Int.tmod_add_tdiv (t.nanosec + d.nanosec) BILLION
  dsimp only
  linarith [h]

theorem time_from_nanosec_zero : time_from_nanosec 0 = { sec := 0, nanosec := 0 } := by
  decide

theorem keysSorted_getD_mono {keys : List Int} (hs : keysSorted keys) {i j : Nat}
    (hij : i ≤ j) (hj : j < keys.length) : keys.getD i 0 ≤ keys.getD j 0 := by
  rcases Nat.lt_or_ge i j with h | h
  · have hi : i < keys.length := lt_trans h hj
    rw [keys.getD_eq_getElem 0 hi, keys.getD_eq_getElem 0 hj]
    exact List.pairwise_iff_getElem.mp hs i j hi hj h
  · have : i = j := le_antisymm hij h
    subst this
    exact le_refl _

/-- Window invariant of the binary-search loop: the result stays in the
window, everything strictly right of it exceeds the target, and (unless the
result is 0) the key at the result is at most the target. -/
theorem bsLoop_spec (keys : List Int) (target : Int) (hs : keysSorted keys) :
    ∀ fuel base size, size ≤ fuel → 1 ≤ size → base + size ≤ keys.length →
    (∀ j, base + size ≤ j → j < keys.length → target < keys.getD j 0) →
    (base = 0 ∨ keys.getD base 0 ≤ target) →
    base ≤ bsLoop keys target fuel base size ∧
    bsLoop keys target fuel base size < base + size ∧
    (∀ j, bsLoop keys target fuel base size < j → j < keys.length →
      target < keys.getD j 0) ∧
    (bsLoop keys target fuel base size = 0 ∨
      keys.getD (bsLoop keys target fuel base size) 0 ≤ target) := by
  intro fuel
  induction fuel with
  | zero => intro base size hsz h1 _ _ _; omega
  | succ fuel ih =>
    intro base size hsz h1 hlen hright hleft
    by_cases hgt : 1 < size
    · have hhalf1 : 1 ≤ size / 2 := Nat.one_le_div_iff (by omega) |>.mpr (by omega)
      have hhalflt : size / 2 < size := Nat.div_lt_self (by omega) (by omega)
      set half := size / 2 with hhalf
      set mid := base + half with hmid
      by_cases hcmp : target < keys.getD mid 0
      · -- Greater: window becomes [base, base + (size - half)).
        have hres : bsLoop keys target (fuel + 1) base size =
            bsLoop keys target fuel base (size - half) := by
          simp only [bsLoop, if_pos hgt, if_pos hcmp]
        rw [hres]
        have hmid_le : mid ≤ base + (size - half) := by omega
        have hright' : ∀ j, base + (size - half) ≤ j → j < keys.length →
            target < keys.getD j 0 := by
          intro j hj hjlen
          have hmj : mid ≤ j := le_trans hmid_le hj
          exact lt_of_lt_of_le hcmp (keysSorted_getD_mono hs hmj hjlen)
        obtain ⟨ha, hb, hc, hd⟩ :=
          ih base (size - half) (by omega) (by omega) (by omega) hright' hleft
        exact ⟨ha, by omega, hc, hd⟩
      · -- Less or Equal: window becomes [mid, base + size).
        have hres : bsLoop keys target (fuel + 1) base size =
            bsLoop keys target fuel mid (size - half) := by
          simp only [bsLoop, if_pos hgt, if_neg hcmp]
        rw [hres]
        have hright' : ∀ j, mid + (size - half) ≤ j → j < keys.length →
            target < keys.getD j 0 := by
          intro j hj hjlen
          exact hright j (by omega) hjlen
        have hleft' : mid = 0 ∨ keys.getD mid 0 ≤ target :=
          Or.inr (le_of_not_lt hcmp)
        obtain ⟨ha, hb, hc, hd⟩ :=
          ih mid (size - half) (by omega) (by omega) (by omega) hright' hleft'
        exact ⟨by omega, by omega, hc, hd⟩
    · have hsize : size = 1 := by omega
      subst hsize
      have hres : bsLoop keys target (fuel + 1) base 1 = base := by
        simp [bsLoop]
      rw [hres]
      refine ⟨le_refl _, by omega, ?_, hleft⟩
      intro j hj hjlen
      exact hright j (by omega) hjlen

/-- Characterization of a successful binary search on sorted keys. -/
theorem rust_binary_search_ok {keys : List Int} {target : Int} {i : Nat}
    (hs : keysSorted keys) (h : rust_binary_search keys target = .ok i) :
    i < keys.length ∧ keys.getD i 0 = target ∧
    (∀ j, j < i → keys.getD j 0 ≤ target) ∧
    (∀ j, i < j → j < keys.length → target < keys.getD j 0) := by
  unfold rust_binary_search at h
  split at h
  · exact absurd h (by simp)
  · rename_i hlen
    have hspec := bsLoop_spec keys target hs keys.length 0 keys.length (le_refl _)
      (by omega) (by omega) (by intro j hj hjlen; omega) (Or.inl rfl)
    set base := bsLoop keys target keys.length 0 keys.length with hbase
    dsimp only at h
    split at h
    · rename_i heq
      obtain rfl : base = i := by exact Except.ok.inj h
      obtain ⟨h1, h2, h3, h4⟩ := hspec
      refine ⟨by omega, heq, ?_, h3⟩
      intro j hj
      rcases h4 with h0 | hle
      · omega
      · exact le_trans (keysSorted_getD_mono hs (le_of_lt hj) (by omega)) hle
    · split at h
      · exact absurd h (by simp)
      · exact absurd h (by simp)

/-- Characterization of a failed binary search on sorted keys: everything
before the insertion index is strictly below the target, everything from it
on is strictly above. -/
theorem rust_binary_search_err {keys : List Int} {target : Int} {i : Nat}
    (hs : keysSorted keys) (h : rust_binary_search keys target = .error i) :
    i ≤ keys.length ∧
    (∀ j, j < i → keys.getD j 0 < target) ∧
    (∀ j, i ≤ j → j < keys.length → target < keys.getD j 0) := by
  unfold rust_binary_search at h
  split at h
  · rename_i hlen
    obtain rfl : (0 : Nat) = i := Except.error.inj h
    exact ⟨by omega, by omega, by intro j _ hj; omega⟩
  · rename_i hlen
    have hspec := bsLoop_spec keys target hs keys.length 0 keys.length (le_refl _)
      (by omega) (by omega) (by intro j hj hjlen; omega) (Or.inl rfl)
    set base := bsLoop keys target keys.length 0 keys.length with hbase
    dsimp only at h
    obtain ⟨h1, h2, h3, h4⟩ := hspec
    split at h
    · exact absurd h (by simp)
    · rename_i heq
      split at h
      · rename_i hlt
        obtain rfl : base + 1 = i := Except.error.inj h
        refine ⟨by omega, ?_, ?_⟩
        · intro j hj
          exact lt_of_le_of_lt (keysSorted_getD_mono hs (by omega) (by omega)) hlt
        · intro j hj hjlen
          exact h3 j (by omega) hjlen
      · rename_i hlt
        obtain rfl : base = i := Except.error.inj h
        have hbase0 : base = 0 := by
          rcases h4 with h0 | hle
          · exact h0
          · exact absurd hle (by omega)
        refine ⟨by omega, by omega, ?_⟩
        intro j hj hjlen
        have hgt : target < keys.getD 0 0 := by
          have := lt_of_le_of_ne (le_of_not_lt hlt) (Ne.symm heq)
          rw [hbase0] at this
          exact this
        exact lt_of_lt_of_le hgt (keysSorted_getD_mono hs (Nat.zero_le j) hjlen)

theorem map_insertIdx {α β : Type} (f : α → β) :
    ∀ (n : Nat) (x : α) (l : List α),
      (l.insertIdx n x).map f = (l.map f).insertIdx n (f x)
  | 0, _, _ => rfl
  | _ + 1, _, [] => rfl
  | n + 1, x, a :: l => by
    simp only [List.insertIdx_succ_cons, List.map_cons, map_insertIdx f n x l]

/-- Window containment of the binary-search loop, independent of sortedness. -/
theorem bsLoop_bounds (keys : List Int) (target : Int) :
    ∀ fuel base size, 1 ≤ size →
    base ≤ bsLoop keys target fuel base size ∧
    bsLoop keys target fuel base size < base + size := by
  intro fuel
  induction fuel with
  | zero => intro base size h1; simp only [bsLoop]; omega
  | succ fuel ih =>
    intro base size h1
    by_cases hgt : 1 < size
    · have hhalf1 : 1 ≤ size / 2 := Nat.one_le_div_iff (by omega) |>.mpr (by omega)
      have hhalflt : size / 2 < size := Nat.div_lt_self (by omega) (by omega)
      by_cases hcmp : target < keys.getD (base + size / 2) 0
      · have hres : bsLoop keys target (fuel + 1) base size =
            bsLoop keys target fuel base (size - size / 2) := by
          simp only [bsLoop, if_pos hgt, if_pos hcmp]
        rw [hres]
        have := ih base (size - size / 2) (by omega)
        omega
      · have hres : bsLoop keys target (fuel + 1) base size =
            bsLoop keys target fuel (base + size / 2) (size - size / 2) := by
          simp only [bsLoop, if_pos hgt, if_neg hcmp]
        rw [hres]
        have := ih (base + size / 2) (size - size / 2) (by omega)
        omega
    · have hsize : size = 1 := by omega
      subst hsize
      simp only [bsLoop, if_neg hgt]
      omega

/-- The collapsed (`unwrap_or_else`) binary-search index never exceeds the
list length. -/
theorem bs_index_le_length (keys : List Int) (target : Int) :
    bs_index (rust_binary_search keys target) ≤ keys.length := by
  unfold rust_binary_search
  split
  · simp [bs_index]
  · rename_i hlen
    have := bsLoop_bounds keys target keys.length 0 keys.length (by omega)
    dsimp only
    split
    · simp only [bs_index]; omega
    · split
      · simp only [bs_index]; omega
      · simp only [bs_index]; omega

/-- On sorted keys, the collapsed binary-search index is a valid insertion
point: everything before it is at most the target, everything from it on is
at least the target. -/
theorem bs_collapse_spec {keys : List Int} {target : Int} (hs : keysSorted keys) :
    (∀ j, j < bs_index (rust_binary_search keys target) → keys.getD j 0 ≤ target) ∧
    (∀ j, bs_index (rust_binary_search keys target) ≤ j → j < keys.length →
      target ≤ keys.getD j 0) := by
  rcases hres : rust_binary_search keys target with i | i
  · obtain ⟨h1, h2, h3⟩ := rust_binary_search_err hs hres
    simp only [bs_index]
    exact ⟨fun j hj => le_of_lt (h2 j hj), fun j hj hjl => le_of_lt (h3 j hj hjl)⟩
  · obtain ⟨h1, h2, h3, h4⟩ := rust_binary_search_ok hs hres
    simp only [bs_index]
    refine ⟨h3, fun j hj hjl => ?_⟩
    rcases Nat.eq_or_lt_of_le hj with rfl | hlt
    · exact le_of_eq h2.symm
    · exact le_of_lt (h4 j hlt hjl)

/-- Inserting a key at a valid insertion point keeps the keys sorted. -/
theorem keysSorted_insertIdx {keys : List Int} {k : Int} {i : Nat}
    (hs : keysSorted keys) (hi : i ≤ keys.length)
    (hle : ∀ j, j < i → keys.getD j 0 ≤ k)
    (hge : ∀ j, i ≤ j → j < keys.length → k ≤ keys.getD j 0) :
    keysSorted (keys.insertIdx i k) := by
  unfold keysSorted
  rw [List.pairwise_iff_getElem]
  have hlen : (keys.insertIdx i k).length = keys.length + 1 :=
    List.length_insertIdx i keys hi
  intro a b ha hb hab
  rcases Nat.lt_trichotomy b i with hbi | hbi | hbi
  · -- both in the untouched prefix
    have hbl : b < keys.length := by omega
    have hal : a < keys.length := by omega
    rw [List.getElem_insertIdx_of_lt keys k i a (by omega) hal,
      List.getElem_insertIdx_of_lt keys k i b hbi hbl]
    exact List.pairwise_iff_getElem.mp hs a b hal hbl hab
  · -- b is the inserted element
    subst hbi
    rw [List.getElem_insertIdx_self keys k b hi,
      List.getElem_insertIdx_of_lt keys k b a hab (by omega)]
    have := hle a hab
    rwa [List.getD_eq_getElem keys 0 (by omega)] at this
  · -- b is past the inserted element
    obtain ⟨m, rfl⟩ : ∃ m, b = i + m + 1 := ⟨b - i - 1, by omega⟩
    have hml : i + m < keys.length := by omega
    rw [List.getElem_insertIdx_add_succ keys k i m hml]
    rcases Nat.lt_trichotomy a i with hai | hai | hai
    · rw [List.getElem_insertIdx_of_lt keys k i a hai (by omega)]
      exact List.pairwise_iff_getElem.mp hs a (i + m) (by omega) hml (by omega)
    · subst hai
      rw [List.getElem_insertIdx_self keys k a hi]
      have := hge (a + m) (by omega) (by omega)
      rwa [List.getD_eq_getElem keys 0 (by omega)] at this
    · obtain ⟨p, rfl⟩ : ∃ p, a = i + p + 1 := ⟨a - i - 1, by omega⟩
      rw [List.getElem_insertIdx_add_succ keys k i p (by omega)]
      exact List.pairwise_iff_getElem.mp hs (i + p) (i + m) (by omega) hml (by omega)

theorem chainKeys_length {T : Type} (l : List (TransformStamped T)) :
    (chainKeys l).length = l.length := by
  unfold chainKeys
  exact l.length_map _

theorem chainKeys_insertIdx {T : Type} (l : List (TransformStamped T)) (i : Nat)
    (msg : TransformStamped T) :
    chainKeys (l.insertIdx i msg) =
      (chainKeys l).insertIdx i (time_as_ns_i64 msg.header.stamp) := by
  unfold chainKeys
  exact map_insertIdx _ i msg l

theorem chainKeys_drop {T : Type} (l : List (TransformStamped T)) (n : Nat) :
    chainKeys (l.drop n) = (chainKeys l).drop n := by
  unfold chainKeys
  exact List.map_drop _ l n

/-- The chain stored by `add_to_buffer`: the message is inserted at the
collapsed binary-search index; then, if the newest stamp exceeds the cache
duration, the prefix before the binary-search index of
`newest - cache_duration` is dropped. -/
theorem add_to_buffer_transform_chain {T : Type} (c : TfIndividualTransformChain T)
    (msg : TransformStamped T) :
    (add_to_buffer c msg).transform_chain =
      (let inserted := c.transform_chain.insertIdx
        (bs_index (binary_search_time c.transform_chain msg.header.stamp)) msg
      match inserted.getLast? with
      | none => inserted
      | some last_elem =>
        if is_time_later last_elem.header.stamp
            (add_time_and_duration (time_from_nanosec 0) c.cache_duration) then
          inserted.drop (bs_index (binary_search_time inserted
            (sub_duration_from_time last_elem.header.stamp c.cache_duration)))
        else inserted) := by
  unfold add_to_buffer
  dsimp only
  split
  · rfl
  · split <;> rfl

/-- `add_to_buffer` preserves chain sortedness. -/
theorem add_to_buffer_sorted {T : Type} {c : TfIndividualTransformChain T}
    {msg : TransformStamped T} (hs : chainSorted c) :
    chainSorted (add_to_buffer c msg) := by
  have hins : keysSorted (chainKeys (c.transform_chain.insertIdx
      (bs_index (binary_search_time c.transform_chain msg.header.stamp)) msg)) := by
    rw [chainKeys_insertIdx]
    have hcol := @bs_collapse_spec (chainKeys c.transform_chain)
      (time_as_ns_i64 msg.header.stamp) hs
    refine keysSorted_insertIdx hs ?_ hcol.1 hcol.2
    unfold binary_search_time
    exact bs_index_le_length _ _
  unfold chainSorted
  rw [add_to_buffer_transform_chain]
  dsimp only
  split
  · exact hins
  · split
    · rw [chainKeys_drop]
      exact List.Pairwise.sublist (List.drop_sublist _ _) hins
    · exact hins

/-- On sorted keys, a target strictly below the first key yields the
insertion index 0. -/
theorem rust_binary_search_before_first {keys : List Int} {target : Int}
    (hs : keysSorted keys) (hne : 0 < keys.length)
    (hlt : target < keys.getD 0 0) :
    rust_binary_search keys target = .error 0 := by
  rcases hres : rust_binary_search keys target with i | i
  · obtain ⟨h1, h2, h3⟩ := rust_binary_search_err hs hres
    rcases Nat.eq_zero_or_pos i with rfl | hi
    · rfl
    · have := h2 0 hi
      have hmono := keysSorted_getD_mono hs (Nat.zero_le 0) (by omega)
      omega
  · obtain ⟨h1, h2, h3, h4⟩ := rust_binary_search_ok hs hres
    have := keysSorted_getD_mono hs (Nat.zero_le i) h1
    omega

/-- On sorted keys, a target strictly above the last key yields the
insertion index `length`. -/
theorem rust_binary_search_after_last {keys : List Int} {target : Int}
    (hs : keysSorted keys) (hne : 0 < keys.length)
    (hgt : keys.getD (keys.length - 1) 0 < target) :
    rust_binary_search keys target = .error keys.length := by
  rcases hres : rust_binary_search keys target with i | i
  · obtain ⟨h1, h2, h3⟩ := rust_binary_search_err hs hres
    rcases Nat.eq_or_lt_of_le h1 with rfl | hi
    · rfl
    · have := h3 (keys.length - 1) (by omega) (by omega)
      omega
  · obtain ⟨h1, h2, h3, h4⟩ := rust_binary_search_ok hs hres
    have := keysSorted_getD_mono hs (Nat.le_sub_one_of_lt h1) (by omega)
    omega

/-- On strictly sorted keys, an exact hit is found at its (unique) index. -/
theorem rust_binary_search_exact {keys : List Int} {target : Int} {i : Nat}
    (hs : keys.Pairwise (· < ·)) (hi : i < keys.length)
    (heq : keys.getD i 0 = target) :
    rust_binary_search keys target = .ok i := by
  have hs' : keysSorted keys := hs.imp le_of_lt
  rcases hres : rust_binary_search keys target with j | j
  · obtain ⟨h1, h2, h3⟩ := rust_binary_search_err hs' hres
    rcases Nat.lt_or_ge i j with hij | hij
    · have := h2 i hij
      omega
    · have := h3 i hij hi
      omega
  · obtain ⟨h1, h2, h3, h4⟩ := rust_binary_search_ok hs' hres
    rcases Nat.lt_trichotomy i j with hij | rfl | hij
    · have := List.pairwise_iff_getElem.mp hs i j hi h1 hij
      rw [← keys.getD_eq_getElem 0 hi, ← keys.getD_eq_getElem 0 h1] at this
      omega
    · rfl
    · have := h4 i hij hi
      omega

/-- If the target is at most the last key, the collapsed binary-search index
is strictly below the length (the last element survives a `drain` at it). -/
theorem bs_index_lt_of_le_last {keys : List Int} {target : Int}
    (hs : keysSorted keys) (hne : 0 < keys.length)
    (hlast : target ≤ keys.getD (keys.length - 1) 0) :
    bs_index (rust_binary_search keys target) < keys.length := by
  rcases hres : rust_binary_search keys target with i | i
  · obtain ⟨h1, h2, h3⟩ := rust_binary_search_err hs hres
    rcases Nat.eq_or_lt_of_le h1 with rfl | hi
    · have := h2 (keys.length - 1) (by omega)
      omega
    · simpa [bs_index] using hi
  · obtain ⟨h1, _, _, _⟩ := rust_binary_search_ok hs hres
    simpa [bs_index] using h1

/-- The eviction guard of `add_to_buffer` tests exactly
`cache_duration < newest` on ns-equivalents. -/
theorem evict_cond_iff (newest : Time) (cache : Duration) :
    is_time_later newest (add_time_and_duration (time_from_nanosec 0) cache) = true ↔
      get_nanos cache < time_as_ns_i64 newest := by
  unfold is_time_later
  rw [ns_add_time_and_duration, time_from_nanosec_zero]
  simp [time_as_ns_i64]

theorem insertedChain_length {T : Type} (c : TfIndividualTransformChain T)
    (msg : TransformStamped T) :
    (insertedChain c msg).length = c.transform_chain.length + 1 := by
  unfold insertedChain
  refine List.length_insertIdx _ _ ?_
  have := bs_index_le_length (chainKeys c.transform_chain)
    (time_as_ns_i64 msg.header.stamp)
  rw [chainKeys_length] at this
  exact this

theorem insertedChain_ne_nil {T : Type} (c : TfIndividualTransformChain T)
    (msg : TransformStamped T) : insertedChain c msg ≠ [] := by
  refine List.ne_nil_of_length_pos ?_
  rw [insertedChain_length]
  omega

theorem insertedChain_sorted {T : Type} {c : TfIndividualTransformChain T}
    (msg : TransformStamped T) (hs : chainSorted c) :
    keysSorted (chainKeys (insertedChain c msg)) := by
  unfold insertedChain
  rw [chainKeys_insertIdx]
  have hcol := @bs_collapse_spec (chainKeys c.transform_chain)
    (time_as_ns_i64 msg.header.stamp) hs
  refine keysSorted_insertIdx hs ?_ hcol.1 hcol.2
  unfold binary_search_time
  exact bs_index_le_length _ _

/-- `add_to_buffer` without eviction: the stored chain is exactly the
inserted chain. -/
theorem add_to_buffer_no_evict {T : Type} (c : TfIndividualTransformChain T)
    (msg : TransformStamped T)
    (hcond : time_as_ns_i64 ((insertedChain c msg).getLast
        (insertedChain_ne_nil c msg)).header.stamp ≤ get_nanos c.cache_duration) :
    (add_to_buffer c msg).transform_chain = insertedChain c msg := by
  rw [add_to_buffer_transform_chain]
  dsimp only
  rw [show (c.transform_chain.insertIdx
      (bs_index (binary_search_time c.transform_chain msg.header.stamp)) msg) =
    insertedChain c msg from rfl]
  rw [List.getLast?_eq_getLast _ (insertedChain_ne_nil c msg)]
  dsimp only
  rw [if_neg]
  intro hlater
  rw [evict_cond_iff] at hlater
  omega

/-- `add_to_buffer` with eviction: the stored chain is the inserted chain
with the prefix before the binary-search index of `newest - cache` dropped. -/
theorem add_to_buffer_evict {T : Type} (c : TfIndividualTransformChain T)
    (msg : TransformStamped T)
    (hcond : get_nanos c.cache_duration < time_as_ns_i64 ((insertedChain c msg).getLast
        (insertedChain_ne_nil c msg)).header.stamp) :
    (add_to_buffer c msg).transform_chain = (insertedChain c msg).drop
      (bs_index (binary_search_time (insertedChain c msg)
        (sub_duration_from_time ((insertedChain c msg).getLast
          (insertedChain_ne_nil c msg)).header.stamp c.cache_duration))) := by
  rw [add_to_buffer_transform_chain]
  dsimp only
  rw [show (c.transform_chain.insertIdx
      (bs_index (binary_search_time c.transform_chain msg.header.stamp)) msg) =
    insertedChain c msg from rfl]
  rw [List.getLast?_eq_getLast _ (insertedChain_ne_nil c msg)]
  dsimp only
  rw [if_pos]
  rw [evict_cond_iff]
  exact hcond

theorem chainKeys_getD {T : Type} (l : List (TransformStamped T)) {i : Nat}
    (hi : i < l.length) :
    (chainKeys l).getD i 0 = time_as_ns_i64 (l[i].header.stamp) := by
  have hi' : i < (chainKeys l).length := by rwa [chainKeys_length]
  rw [List.getD_eq_getElem _ 0 hi']
  unfold chainKeys
  rw [List.getElem_map]

theorem chainKeys_getD_head {T : Type} (l : List (TransformStamped T)) (hne : l ≠ []) :
    (chainKeys l).getD 0 0 = time_as_ns_i64 ((l.head hne).header.stamp) := by
  rw [chainKeys_getD l (List.length_pos.mpr hne), List.head_eq_getElem]

theorem chainKeys_getD_last {T : Type} (l : List (TransformStamped T)) (hne : l ≠ []) :
    (chainKeys l).getD (l.length - 1) 0 =
      time_as_ns_i64 ((l.getLast hne).header.stamp) := by
  have hpos : 0 < l.length := List.length_pos.mpr hne
  rw [chainKeys_getD l (by omega), List.getLast_eq_getElem]

/-- On a static edge, `get_closest_transform` returns the last stored sample
for every query time. -/
theorem get_closest_transform_static {T : Type} (ops : TransformOps T)
    (c : TfIndividualTransformChain T) (time : Time) (hst : c.static_tf = true) :
    get_closest_transform ops c time = c.transform_chain.getLast?.map .ok := by
  unfold get_closest_transform
  by_cases hns : time_as_ns_i64 time = 0
  · rw [if_pos hns]
  · rw [if_neg hns, hst]
    simp only [if_true]

/-- With the zero sentinel, `get_closest_transform` returns the last stored
sample. -/
theorem get_closest_transform_latest {T : Type} (ops : TransformOps T)
    (c : TfIndividualTransformChain T) (time : Time)
    (hns : time_as_ns_i64 time = 0) :
    get_closest_transform ops c time = c.transform_chain.getLast?.map .ok := by
  unfold get_closest_transform
  rw [if_pos hns]

/-- A query strictly before the first stored stamp fails with
`AttemptedLookupInPast` carrying the query time and the first sample. -/
theorem get_closest_transform_past {T : Type} (ops : TransformOps T)
    {c : TfIndividualTransformChain T} {time : Time}
    (hst : c.static_tf = false) (hns : time_as_ns_i64 time ≠ 0)
    (hne : c.transform_chain ≠ []) (hs : chainSorted c)
    (hlt : time_as_ns_i64 time <
      time_as_ns_i64 ((c.transform_chain.head hne).header.stamp)) :
    get_closest_transform ops c time =
      some (.error (.AttemptedLookupInPast time (c.transform_chain.head hne))) := by
  unfold get_closest_transform
  rw [if_neg hns, hst]
  simp only [Bool.false_eq_true, if_false]
  have hpos : 0 < c.transform_chain.length := List.length_pos.mpr hne
  have hres : binary_search_time c.transform_chain time = .error 0 := by
    unfold binary_search_time
    refine rust_binary_search_before_first hs ?_ ?_
    · rwa [chainKeys_length]
    · rwa [chainKeys_getD_head _ hne]
  rw [hres]
  simp [List.head?_eq_head hne]

/-- A query strictly after the last stored stamp fails with
`AttemptedLookUpInFuture` carrying the last sample and the query time. -/
theorem get_closest_transform_future {T : Type} (ops : TransformOps T)
    {c : TfIndividualTransformChain T} {time : Time}
    (hst : c.static_tf = false) (hns : time_as_ns_i64 time ≠ 0)
    (hne : c.transform_chain ≠ []) (hs : chainSorted c)
    (hgt : time_as_ns_i64 ((c.transform_chain.getLast hne).header.stamp) <
      time_as_ns_i64 time) :
    get_closest_transform ops c time =
      some (.error (.AttemptedLookUpInFuture (c.transform_chain.getLast hne) time)) := by
  unfold get_closest_transform
  rw [if_neg hns, hst]
  simp only [Bool.false_eq_true, if_false]
  have hpos : 0 < c.transform_chain.length := List.length_pos.mpr hne
  have hres : binary_search_time c.transform_chain time =
      .error c.transform_chain.length := by
    unfold binary_search_time
    have := @rust_binary_search_after_last (chainKeys c.transform_chain)
      (time_as_ns_i64 time) hs (by rwa [chainKeys_length])
      (by rwa [chainKeys_length, chainKeys_getD_last _ hne])
    rwa [chainKeys_length] at this
  rw [hres]
  simp [List.getLast?_eq_getLast _ hne, show ¬c.transform_chain.length = 0 from by omega]

/-- On a strictly sorted non-static history, an exact stamp hit returns the
stored sample at that stamp. -/
theorem get_closest_transform_exact {T : Type} (ops : TransformOps T)
    {c : TfIndividualTransformChain T} {time : Time} {i : Nat}
    (hst : c.static_tf = false) (hns : time_as_ns_i64 time ≠ 0)
    (hss : chainStrictSorted c) (hi : i < c.transform_chain.length)
    (heq : time_as_ns_i64 (c.transform_chain[i].header.stamp) = time_as_ns_i64 time) :
    get_closest_transform ops c time = some (.ok c.transform_chain[i]) := by
  unfold get_closest_transform
  rw [if_neg hns, hst]
  simp only [Bool.false_eq_true, if_false]
  have hres : binary_search_time c.transform_chain time = .ok i := by
    unfold binary_search_time
    refine rust_binary_search_exact hss ?_ ?_
    · rwa [chainKeys_length]
    · rwa [chainKeys_getD _ hi]
  rw [hres]
  simp [List.get?_eq_getElem?, List.getElem?_eq_getElem hi]

/-- Retention behaviour of `add_to_buffer` when eviction triggers: every kept
sample is at least `newest - cache_duration`, the newest sample survives, and
a sample stamped exactly at `newest - cache_duration` survives. -/
theorem add_to_buffer_retention {T : Type} (c : TfIndividualTransformChain T)
    (msg : TransformStamped T) (hs : chainSorted c)
    (hc0 : 0 ≤ get_nanos c.cache_duration)
    (hev : get_nanos c.cache_duration < time_as_ns_i64
      ((insertedChain c msg).getLast (insertedChain_ne_nil c msg)).header.stamp) :
    (∀ e ∈ (add_to_buffer c msg).transform_chain,
      time_as_ns_i64 ((insertedChain c msg).getLast
          (insertedChain_ne_nil c msg)).header.stamp - get_nanos c.cache_duration ≤
        time_as_ns_i64 e.header.stamp) ∧
    (∃ hne2 : (add_to_buffer c msg).transform_chain ≠ [],
      time_as_ns_i64 (((add_to_buffer c msg).transform_chain.getLast hne2).header.stamp) =
        time_as_ns_i64 ((insertedChain c msg).getLast
          (insertedChain_ne_nil c msg)).header.stamp) ∧
    ((∃ e ∈ insertedChain c msg,
        time_as_ns_i64 e.header.stamp =
          time_as_ns_i64 ((insertedChain c msg).getLast
            (insertedChain_ne_nil c msg)).header.stamp - get_nanos c.cache_duration) →
      ∃ e ∈ (add_to_buffer c msg).transform_chain,
        time_as_ns_i64 e.header.stamp =
          time_as_ns_i64 ((insertedChain c msg).getLast
            (insertedChain_ne_nil c msg)).header.stamp - get_nanos c.cache_duration) := by
  have hins := insertedChain_sorted msg hs
  have hneL := insertedChain_ne_nil c msg
  have hposL : 0 < (insertedChain c msg).length := List.length_pos.mpr hneL
  have htk : time_as_ns_i64 (sub_duration_from_time
      ((insertedChain c msg).getLast hneL).header.stamp c.cache_duration) =
      time_as_ns_i64 ((insertedChain c msg).getLast hneL).header.stamp -
        get_nanos c.cache_duration := ns_sub_duration_from_time _ _
  have hrw := add_to_buffer_evict c msg hev
  have hbst : binary_search_time (insertedChain c msg)
      (sub_duration_from_time ((insertedChain c msg).getLast hneL).header.stamp
        c.cache_duration) =
      rust_binary_search (chainKeys (insertedChain c msg))
        (time_as_ns_i64 (sub_duration_from_time
          ((insertedChain c msg).getLast hneL).header.stamp c.cache_duration)) := rfl
  have hlast_key : (chainKeys (insertedChain c msg)).getD
      ((chainKeys (insertedChain c msg)).length - 1) 0 =
      time_as_ns_i64 ((insertedChain c msg).getLast hneL).header.stamp := by
    rw [chainKeys_length, chainKeys_getD_last _ hneL]
  have hcol := @bs_collapse_spec (chainKeys (insertedChain c msg))
    (time_as_ns_i64 (sub_duration_from_time
      ((insertedChain c msg).getLast hneL).header.stamp c.cache_duration)) hins
  have hidx2_lt : bs_index (binary_search_time (insertedChain c msg)
      (sub_duration_from_time ((insertedChain c msg).getLast hneL).header.stamp
        c.cache_duration)) < (insertedChain c msg).length := by
    rw [hbst]
    have := @bs_index_lt_of_le_last (chainKeys (insertedChain c msg))
      (time_as_ns_i64 (sub_duration_from_time
        ((insertedChain c msg).getLast hneL).header.stamp c.cache_duration)) hins
      (by rwa [chainKeys_length]) (by rw [hlast_key, htk]; omega)
    rwa [chainKeys_length] at this
  set idx2 := bs_index (binary_search_time (insertedChain c msg)
    (sub_duration_from_time ((insertedChain c msg).getLast hneL).header.stamp
      c.cache_duration)) with hidx2
  refine ⟨?_, ?_, ?_⟩
  · -- every kept sample is at least the threshold
    intro e he
    rw [hrw] at he
    obtain ⟨j, hj, hget⟩ := List.mem_iff_getElem.mp he
    rw [List.getElem_drop] at hget
    have hjlen : idx2 + j < (insertedChain c msg).length := by
      rw [List.length_drop] at hj
      omega
    have := hcol.2 (idx2 + j) (by rw [hbst] at hidx2; omega)
      (by rwa [chainKeys_length])
    rw [chainKeys_getD _ hjlen, hget, htk] at this
    omega
  · -- the newest sample survives
    have hlen' : ((add_to_buffer c msg).transform_chain).length =
        (insertedChain c msg).length - idx2 := by
      rw [hrw, List.length_drop]
    have hne2 : (add_to_buffer c msg).transform_chain ≠ [] := by
      refine List.ne_nil_of_length_pos ?_
      omega
    refine ⟨hne2, ?_⟩
    rw [List.getLast_eq_getElem _ hne2]
    have hb1 : (add_to_buffer c msg).transform_chain.length - 1 <
        (add_to_buffer c msg).transform_chain.length := by omega
    have hidx : (add_to_buffer c msg).transform_chain.length - 1 <
        ((insertedChain c msg).drop idx2).length := by
      rw [← hrw]; omega
    have hidx2sum : idx2 + ((add_to_buffer c msg).transform_chain.length - 1) <
        (insertedChain c msg).length := by
      rw [List.length_drop] at hidx; omega
    have hbL : (insertedChain c msg).length - 1 < (insertedChain c msg).length := by
      omega
    have hgoal : ((add_to_buffer c msg).transform_chain)[(add_to_buffer c msg).transform_chain.length - 1] =
        ((insertedChain c msg).getLast hneL) := by
      calc ((add_to_buffer c msg).transform_chain)[(add_to_buffer c msg).transform_chain.length - 1]
          = ((insertedChain c msg).drop idx2)[(add_to_buffer c msg).transform_chain.length - 1] := by
            congr 1 <;> rw [hrw]
        _ = (insertedChain c msg)[idx2 + ((add_to_buffer c msg).transform_chain.length - 1)] :=
            List.getElem_drop _
        _ = (insertedChain c msg)[(insertedChain c msg).length - 1] := by
            congr 1
            omega
        _ = (insertedChain c msg).getLast hneL := (List.getLast_eq_getElem _ hneL).symm
    exact congrArg (fun x => time_as_ns_i64 x.header.stamp) hgoal
  · -- a sample exactly at the threshold survives
    rintro ⟨e, he, hkey⟩
    obtain ⟨j, hj, hget⟩ := List.mem_iff_getElem.mp he
    rcases hres : rust_binary_search (chainKeys (insertedChain c msg))
        (time_as_ns_i64 (sub_duration_from_time
          ((insertedChain c msg).getLast hneL).header.stamp c.cache_duration))
      with i | i
    · -- insertion-point result is impossible when the threshold key occurs
      obtain ⟨h1, h2, h3⟩ := rust_binary_search_err hins hres
      have hjkey : (chainKeys (insertedChain c msg)).getD j 0 =
          time_as_ns_i64 ((insertedChain c msg).getLast hneL).header.stamp -
            get_nanos c.cache_duration := by
        rw [chainKeys_getD _ hj, hget, hkey]
      rcases Nat.lt_or_ge j i with hji | hji
      · have := h2 j hji
        rw [hjkey, htk] at this
        omega
      · have := h3 j hji (by rwa [chainKeys_length])
        rw [hjkey, htk] at this
        omega
    · obtain ⟨h1, h2, h3, h4⟩ := rust_binary_search_ok hins hres
      have hidx2i : idx2 = i := by
        rw [hidx2, hbst, hres]
        rfl
      have hilen : i < (insertedChain c msg).length := by rwa [chainKeys_length] at h1
      refine ⟨(insertedChain c msg)[i], ?_, ?_⟩
      · rw [hrw, hidx2i]
        have h0 : 0 < ((insertedChain c msg).drop i).length := by
          rw [List.length_drop]
          omega
        have : ((insertedChain c msg).drop i)[0] = (insertedChain c msg)[i] := by
          rw [List.getElem_drop]
          simp
        rw [← this]
        exact List.getElem_mem h0
      · have := h2
        rw [chainKeys_getD _ hilen, htk] at this
        exact this

/-- For a unit rotation, composing a transform with its inverse gives the
identity transform exactly. -/
theorem qtransform_compose_inverse (t : QTransform) (h : unitQuat t.rotation) :
    qtransform_compose t (qtransform_inverse t) = qtransform_identity := by
  obtain ⟨⟨tx, ty, tz⟩, ⟨qx, qy, qz, qw⟩⟩ := t
  unfold unitQuat at h
  dsimp only at h
  unfold qtransform_compose qtransform_inverse qtransform_identity quat_rotate
    quat_mul quat_conj vec_add vec_neg
  ext <;> dsimp only
  · linear_combination (-tx * (qx ^ 2 + qy ^ 2 + qz ^ 2 + qw ^ 2 + 1)) * h
  · linear_combination (-ty * (qx ^ 2 + qy ^ 2 + qz ^ 2 + qw ^ 2 + 1)) * h
  · linear_combination (-tz * (qx ^ 2 + qy ^ 2 + qz ^ 2 + qw ^ 2 + 1)) * h
  · ring
  · ring
  · ring
  · linear_combination h

/-! ## Association-list facts -/

theorem assocGet_mem {κ α : Type} [DecidableEq κ] {m : List (κ × α)} {k : κ} {v : α}
    (h : assocGet m k = some v) : (k, v) ∈ m := by
  unfold assocGet at h
  cases hf : m.find? (fun p => p.1 = k) with
  | none => rw [hf] at h; simp at h
  | some p =>
    rw [hf] at h
    simp only [Option.map_some', Option.some.injEq] at h
    have hm := List.mem_of_find?_eq_some hf
    have hp := List.find?_some hf
    simp only [decide_eq_true_eq] at hp
    have : p = (k, v) := by
      obtain ⟨p1, p2⟩ := p
      simp only at hp h
      rw [hp, h]
    rwa [this] at hm

theorem assocGet_eq_none {κ α : Type} [DecidableEq κ] {m : List (κ × α)} {k : κ}
    (h : assocGet m k = none) : ∀ p ∈ m, p.1 ≠ k := by
  unfold assocGet at h
  cases hf : m.find? (fun p => p.1 = k) with
  | none =>
    intro p hp
    have := List.find?_eq_none.mp hf p hp
    simpa using this
  | some p => rw [hf] at h; simp at h

theorem assocGet_cons_self {κ α : Type} [DecidableEq κ] (m : List (κ × α)) (k : κ) (v : α) :
    assocGet ((k, v) :: m) k = some v := by
  simp [assocGet, List.find?]

theorem assocGet_cons_ne {κ α : Type} [DecidableEq κ] (m : List (κ × α)) (k0 : κ) (v0 : α)
    {k : κ} (h : k0 ≠ k) : assocGet ((k0, v0) :: m) k = assocGet m k := by
  simp [assocGet, List.find?, h]

theorem assocGet_assocSet_self {κ α : Type} [DecidableEq κ] (m : List (κ × α)) (k : κ) (v : α) :
    assocGet (assocSet m k v) k = some v := by
  induction m with
  | nil => simp [assocSet, assocGet_cons_self]
  | cons p rest ih =>
    obtain ⟨k0, v0⟩ := p
    unfold assocSet
    by_cases hk : k0 = k
    · subst hk
      simp only [if_pos rfl]
      exact assocGet_cons_self _ _ _
    · rw [if_neg hk, assocGet_cons_ne _ _ _ hk]
      exact ih

theorem assocGet_assocSet_ne {κ α : Type} [DecidableEq κ] (m : List (κ × α)) (k : κ) (v : α)
    {k' : κ} (h : k' ≠ k) : assocGet (assocSet m k v) k' = assocGet m k' := by
  induction m with
  | nil =>
    show assocGet [(k, v)] k' = assocGet [] k'
    rw [assocGet_cons_ne _ _ _ fun hh => h hh.symm]
  | cons p rest ih =>
    obtain ⟨k0, v0⟩ := p
    unfold assocSet
    by_cases hk : k0 = k
    · subst hk
      rw [if_pos rfl, assocGet_cons_ne _ _ _ (fun hh => h hh.symm),
        assocGet_cons_ne _ _ _ (fun hh => h hh.symm)]
    · rw [if_neg hk]
      by_cases hk' : k0 = k'
      · subst hk'
        rw [assocGet_cons_self, assocGet_cons_self]
      · rw [assocGet_cons_ne _ _ _ hk', assocGet_cons_ne _ _ _ hk']
        exact ih

theorem mem_setInsert_self (s : List String) (x : String) : x ∈ setInsert s x := by
  unfold setInsert
  split
  · assumption
  · exact List.mem_cons_self x s

theorem mem_setInsert_of_mem (s : List String) (x y : String) (h : y ∈ s) :
    y ∈ setInsert s x := by
  unfold setInsert
  split
  · exact h
  · exact List.mem_cons_of_mem x h

/-! ## Path-search invariants -/

/-- Shape of one frontier-node expansion: the newly discovered nodes are
prepended (in the same order) to the frontier, the visited list and — paired
with `current` — the parent map; they are fresh, valid children of
`current`; and every valid child of `current` ends up visited. -/
theorem expandChildren_spec {T : Type} (buf : TfBuffer T) (time : Time) (current : String)
    (children : List String) :
    ∀ st : SearchState,
    ∃ new : List String,
      (expandChildren buf time current children st).visited = new ++ st.visited ∧
      (expandChildren buf time current children st).frontier = new ++ st.frontier ∧
      (expandChildren buf time current children st).parents =
        (new.map fun v => (v, current)) ++ st.parents ∧
      new.Nodup ∧
      (∀ v ∈ new, v ∉ st.visited ∧ v ∈ children ∧ edgeValidB buf time current v = true) ∧
      (∀ v ∈ children, edgeValidB buf time current v = true →
        v ∈ (expandChildren buf time current children st).visited) := by
  induction children with
  | nil =>
    intro st
    exact ⟨[], rfl, rfl, rfl, List.nodup_nil, by simp, by simp⟩
  | cons c cs ih =>
    intro st
    have hstep : expandChildren buf time current (c :: cs) st =
        expandChildren buf time current cs
          (if c ∈ st.visited then st
           else if edgeValidB buf time current c then
             { frontier := c :: st.frontier, visited := c :: st.visited,
               parents := (c, current) :: st.parents }
           else st) := rfl
    by_cases hvis : c ∈ st.visited
    · rw [hstep, if_pos hvis]
      obtain ⟨new1, h1, h2, h3, h4, h5, h6⟩ := ih st
      refine ⟨new1, h1, h2, h3, h4, ?_, ?_⟩
      · intro v hv
        obtain ⟨ha, hb, hc⟩ := h5 v hv
        exact ⟨ha, List.mem_cons_of_mem c hb, hc⟩
      · intro v hv hval
        rcases List.mem_cons.mp hv with rfl | hv'
        · rw [h1]
          exact List.mem_append_right _ hvis
        · exact h6 v hv' hval
    · by_cases hval : edgeValidB buf time current c = true
      · rw [hstep, if_neg hvis, if_pos hval]
        obtain ⟨new1, h1, h2, h3, h4, h5, h6⟩ := ih
          { frontier := c :: st.frontier, visited := c :: st.visited,
            parents := (c, current) :: st.parents }
        refine ⟨new1 ++ [c], ?_, ?_, ?_, ?_, ?_, ?_⟩
        · rw [h1]; simp
        · rw [h2]; simp
        · rw [h3]; simp
        · refine List.Nodup.append h4 (List.nodup_singleton c) ?_
          intro a ha hb
          rcases List.mem_singleton.mp hb with rfl
          have := (h5 a ha).1
          simp at this
        · intro v hv
          rcases List.mem_append.mp hv with hv1 | hv1
          · obtain ⟨ha, hb, hc⟩ := h5 v hv1
            refine ⟨fun hmem => ha (List.mem_cons_of_mem c hmem),
              List.mem_cons_of_mem c hb, hc⟩
          · rcases List.mem_singleton.mp hv1 with rfl
            exact ⟨hvis, List.mem_cons_self _ _, hval⟩
        · intro v hv hval2
          rcases List.mem_cons.mp hv with rfl | hv'
          · rw [h1]
            exact List.mem_append_right _ (List.mem_cons_self _ _)
          · exact h6 v hv' hval2
      · rw [hstep, if_neg hvis, if_neg hval]
        obtain ⟨new1, h1, h2, h3, h4, h5, h6⟩ := ih st
        refine ⟨new1, h1, h2, h3, h4, ?_, ?_⟩
        · intro v hv
          obtain ⟨ha, hb, hc⟩ := h5 v hv
          exact ⟨ha, List.mem_cons_of_mem c hb, hc⟩
        · intro v hv hval2
          rcases List.mem_cons.mp hv with rfl | hv'
          · exact absurd hval2 hval
          · exact h6 v hv' hval2

theorem indexOf_append_of_mem {a : String} {l1 l2 : List String} (h : a ∈ l1) :
    List.indexOf a (l1 ++ l2) = List.indexOf a l1 := by
  induction l1 with
  | nil => simp at h
  | cons x xs ih =>
    rw [List.cons_append, List.indexOf_cons, List.indexOf_cons]
    cases hx : (x == a)
    · simp only [cond_false]
      have : a ∈ xs := by
        rcases List.mem_cons.mp h with rfl | hm
        · simp at hx
        · exact hm
      rw [ih this]
    · simp only [cond_true]

theorem assocGet_map_const {α : Type} [DecidableEq α] (cur : α) (new : List α) (v : α) :
    assocGet (new.map fun x => (x, cur)) v = if v ∈ new then some cur else none := by
  induction new with
  | nil => simp [assocGet]
  | cons n ns ih =>
    by_cases hn : n = v
    · subst hn
      simp only [List.map_cons, assocGet_cons_self, List.mem_cons, true_or, if_true]
    · rw [List.map_cons, assocGet_cons_ne _ _ _ hn, ih]
      by_cases hv : v ∈ ns
      · rw [if_pos hv, if_pos (List.mem_cons_of_mem n hv)]
      · rw [if_neg hv, if_neg (by
          intro hm
          rcases List.mem_cons.mp hm with h1 | h1
          · exact hn h1.symm
          · exact hv h1)]

theorem assocGet_append_right {κ α : Type} [DecidableEq κ] {l1 l2 : List (κ × α)} {k : κ}
    (h : ∀ p ∈ l1, p.1 ≠ k) : assocGet (l1 ++ l2) k = assocGet l2 k := by
  induction l1 with
  | nil => rfl
  | cons p rest ih =>
    obtain ⟨k0, v0⟩ := p
    rw [List.cons_append, assocGet_cons_ne _ _ _ (h (k0, v0) (List.mem_cons_self _ _))]
    exact ih fun q hq => h q (List.mem_cons_of_mem _ hq)

theorem assocGet_append_left {κ α : Type} [DecidableEq κ] {l1 l2 : List (κ × α)} {k : κ}
    {v : α} (h : assocGet l1 k = some v) : assocGet (l1 ++ l2) k = some v := by
  induction l1 with
  | nil => simp [assocGet] at h
  | cons p rest ih =>
    obtain ⟨k0, v0⟩ := p
    by_cases hk : k0 = k
    · subst hk
      rw [assocGet_cons_self] at h
      rw [List.cons_append, assocGet_cons_self]
      exact h
    · rw [assocGet_cons_ne _ _ _ hk] at h
      rw [List.cons_append, assocGet_cons_ne _ _ _ hk]
      exact ih h

theorem validEdge_iff {T : Type} (buf : TfBuffer T) (time : Time) (u v : String) :
    validEdge buf time u v = true ↔
      v ∈ childrenOf buf u ∧ edgeValidB buf time u v = true := by
  unfold validEdge
  simp

theorem childrenOf_subset_allNodes {T : Type} (buf : TfBuffer T) {u v : String}
    (h : v ∈ childrenOf buf u) : v ∈ allNodes buf := by
  unfold childrenOf at h
  unfold allNodes
  rw [List.mem_dedup]
  cases hg : assocGet buf.child_transform_index u with
  | none => rw [hg] at h; simp at h
  | some s =>
    rw [hg] at h
    simp only [Option.getD_some] at h
    refine List.mem_append_right _ ?_
    rw [List.mem_flatten]
    exact ⟨s, List.mem_map_of_mem Prod.snd (assocGet_mem hg), h⟩

/-- Master lemma of the search loop: with sufficient fuel, the invariant is
preserved, visited only grows, and on exit either the target was visited or
the visited set is closed under valid edges. -/
theorem search_loop_spec {T : Type} (buf : TfBuffer T) (tgt : String) (time : Time)
    (fr : String) :
    ∀ fuel (st : SearchState), SearchInv buf time fr st →
      searchMeasure buf st ≤ fuel →
      SearchInv buf time fr (search_loop buf tgt time fuel st) ∧
      (∀ x ∈ st.visited, x ∈ (search_loop buf tgt time fuel st).visited) ∧
      (tgt ∈ (search_loop buf tgt time fuel st).visited ∨
        (∀ u ∈ (search_loop buf tgt time fuel st).visited, ∀ v,
          validEdge buf time u v = true →
            v ∈ (search_loop buf tgt time fuel st).visited)) := by
  intro fuel
  induction fuel with
  | zero =>
    intro st hinv hm
    have hst : search_loop buf tgt time 0 st = st := rfl
    rw [hst]
    have hfe : st.frontier = [] := by
      have : st.frontier.length = 0 := by
        unfold searchMeasure at hm
        omega
      exact List.length_eq_zero.mp this
    refine ⟨hinv, fun x hx => hx, Or.inr ?_⟩
    intro u hu v hv
    exact hinv.expanded u hu (by rw [hfe]; exact List.not_mem_nil u) v hv
  | succ fuel ih =>
    intro st hinv hm
    obtain ⟨sf, sv, sp⟩ := st
    cases sf with
    | nil =>
      have hst : search_loop buf tgt time (fuel + 1) ⟨[], sv, sp⟩ = ⟨[], sv, sp⟩ := rfl
      rw [hst]
      refine ⟨hinv, fun x hx => hx, Or.inr ?_⟩
      intro u hu v hv
      exact hinv.expanded u hu (List.not_mem_nil u) v hv
    | cons current rest =>
      by_cases htgt : current = tgt
      · have hst : search_loop buf tgt time (fuel + 1) ⟨current :: rest, sv, sp⟩ =
            ⟨current :: rest, sv, sp⟩ := by
          show (if current = tgt then _ else _) = _
          rw [if_pos htgt]
        rw [hst]
        refine ⟨hinv, fun x hx => hx, Or.inl ?_⟩
        subst htgt
        exact hinv.frontier_sub current (List.mem_cons_self _ _)
      · have hst : search_loop buf tgt time (fuel + 1) ⟨current :: rest, sv, sp⟩ =
            search_loop buf tgt time fuel
              (expandChildren buf time current (childrenOf buf current) ⟨rest, sv, sp⟩) := by
          show (if current = tgt then _ else _) = _
          rw [if_neg htgt]
        rw [hst]
        have hcur_vis : current ∈ sv :=
          hinv.frontier_sub current (List.mem_cons_self _ _)
        obtain ⟨new, hv, hf, hp, hnodup, hnew, hcov⟩ :=
          expandChildren_spec buf time current (childrenOf buf current) ⟨rest, sv, sp⟩
        set st2 := expandChildren buf time current (childrenOf buf current)
          ⟨rest, sv, sp⟩ with hst2
        have hnew_notvis : ∀ v ∈ new, v ∉ sv := fun v hvn => (hnew v hvn).1
        have hnew_valid : ∀ v ∈ new, validEdge buf time current v = true := by
          intro v hvn
          exact (validEdge_iff buf time current v).mpr ⟨(hnew v hvn).2.1, (hnew v hvn).2.2⟩
        have hinv2 : SearchInv buf time fr st2 := by
          refine ⟨?_, ?_, ?_, ?_, ?_, ?_, ?_, ?_, ?_⟩
          · rw [hv]
            exact List.Nodup.append hnodup hinv.vis_nodup
              fun a ha hb => (hnew_notvis a ha) hb
          · rw [hv]
            exact List.mem_append_right _ hinv.fr_vis
          · rw [hf, hv]
            intro x hx
            rcases List.mem_append.mp hx with hx1 | hx1
            · exact List.mem_append_left _ hx1
            · exact List.mem_append_right _
                (hinv.frontier_sub x (List.mem_cons_of_mem _ hx1))
          · rw [hp, hv]
            intro pr hpr
            rcases List.mem_append.mp hpr with hpr1 | hpr1
            · obtain ⟨w, hw, rfl⟩ := List.mem_map.mp hpr1
              refine ⟨List.mem_append_left _ hw, List.mem_append_right _ hcur_vis,
                hnew_valid w hw, ?_⟩
              intro heq
              simp only at heq
              subst heq
              exact (hnew_notvis _ hw) hinv.fr_vis
            · obtain ⟨ha, hb, hc, hd⟩ := hinv.parents_wf pr hpr1
              exact ⟨List.mem_append_right _ ha, List.mem_append_right _ hb, hc, hd⟩
          · rw [hp, hv]
            intro v hvm hne
            rcases List.mem_append.mp hvm with hv1 | hv1
            · refine ⟨current, assocGet_append_left ?_⟩
              rw [assocGet_map_const, if_pos hv1]
            · obtain ⟨u, hu⟩ := hinv.parents_total v hv1 hne
              refine ⟨u, ?_⟩
              rw [assocGet_append_right ?_]
              · exact hu
              · intro p hpm
                obtain ⟨w, hw, rfl⟩ := List.mem_map.mp hpm
                intro heq
                simp only at heq
                subst heq
                exact (hnew_notvis _ hw) hv1
          · rw [hp, hv]
            intro pr hpr
            rcases List.mem_append.mp hpr with hpr1 | hpr1
            · obtain ⟨w, hw, rfl⟩ := List.mem_map.mp hpr1
              have h1 : List.indexOf w (new ++ sv) = List.indexOf w new :=
                indexOf_append_of_mem hw
              have h2 : List.indexOf w new < new.length :=
                List.indexOf_lt_length.mpr hw
              have h3 : List.indexOf current (new ++ sv) =
                  new.length + List.indexOf current sv :=
                List.indexOf_append_of_not_mem fun hc => (hnew_notvis current hc) hcur_vis
              simp only at h1 h3 ⊢
              omega
            · obtain ⟨ha, hb, _, _⟩ := hinv.parents_wf pr hpr1
              have h1 : List.indexOf pr.1 (new ++ sv) =
                  new.length + List.indexOf pr.1 sv :=
                List.indexOf_append_of_not_mem fun hc => (hnew_notvis pr.1 hc) ha
              have h2 : List.indexOf pr.2 (new ++ sv) =
                  new.length + List.indexOf pr.2 sv :=
                List.indexOf_append_of_not_mem fun hc => (hnew_notvis pr.2 hc) hb
              have h3 := hinv.parents_rank pr hpr1
              simp only at h1 h2 h3 ⊢
              omega
          · rw [hv, hp]
            rw [List.length_append, List.length_append, List.length_map]
            have := hinv.card_bound
            simp only at this ⊢
            omega
          · intro u hu hufr v hval
            rw [hv] at hu ⊢
            rw [hf] at hufr
            rcases List.mem_append.mp hu with hu1 | hu1
            · exact absurd (List.mem_append_left rest hu1) hufr
            · by_cases hcu : u = current
              · subst hcu
                obtain ⟨hvc, hve⟩ := (validEdge_iff buf time u v).mp hval
                have := hcov v hvc hve
                rwa [hv] at this
              · have hnot : u ∉ (⟨current :: rest, sv, sp⟩ : SearchState).frontier := by
                  intro hmem
                  rcases List.mem_cons.mp hmem with rfl | hmem1
                  · exact hcu rfl
                  · exact hufr (List.mem_append_right new hmem1)
                exact List.mem_append_right _ (hinv.expanded u hu1 hnot v hval)
          · rw [hv]
            intro x hx
            rcases List.mem_append.mp hx with hx1 | hx1
            · exact Or.inr (childrenOf_subset_allNodes buf (hnew x hx1).2.1)
            · exact hinv.vis_universe x hx1
        have hm2 : searchMeasure buf st2 ≤ fuel := by
          unfold searchMeasure at hm ⊢
          dsimp only at hm
          rw [hv, hf]
          have hsubn : new.toFinset ⊆ (allNodes buf).toFinset \ sv.toFinset := by
            intro a ha
            rw [List.mem_toFinset] at ha
            rw [Finset.mem_sdiff, List.mem_toFinset, List.mem_toFinset]
            exact ⟨childrenOf_subset_allNodes buf (hnew a ha).2.1, hnew_notvis a ha⟩
          have hunion : (new ++ sv).toFinset = new.toFinset ∪ sv.toFinset :=
            List.toFinset_append
          have hsplit : (allNodes buf).toFinset \ (new.toFinset ∪ sv.toFinset) =
              ((allNodes buf).toFinset \ sv.toFinset) \ new.toFinset := by
            ext a
            simp only [Finset.mem_sdiff, Finset.mem_union]
            tauto
          rw [hunion, hsplit, Finset.card_sdiff hsubn,
            List.toFinset_card_of_nodup hnodup, List.length_append]
          have hle := Finset.card_le_card hsubn
          rw [List.toFinset_card_of_nodup hnodup] at hle
          simp only [List.length_cons] at hm
          dsimp only
          omega
        obtain ⟨hinvF, hmono, hdisc⟩ := ih st2 hinv2 hm2
        refine ⟨hinvF, ?_, hdisc⟩
        intro x hx
        refine hmono x ?_
        rw [hv]
        exact List.mem_append_right _ hx

/-- Any successful reconstruction yields a valid path: each followed parent
pointer is a valid edge. -/
theorem recon_go_sound {T : Type} (buf : TfBuffer T) (time : Time) (fr tgt : String)
    {parents : List (String × String)}
    (hwf : ∀ pr ∈ parents, validEdge buf time pr.2 pr.1 = true) :
    ∀ fuel r acc p, pathOk buf time r acc tgt = true →
      recon_go parents fr fuel r acc = some (some p) →
      pathOk buf time fr p tgt = true := by
  intro fuel
  induction fuel with
  | zero => intro r acc p _ h; simp [recon_go] at h
  | succ fuel ih =>
    intro r acc p hacc h
    unfold recon_go at h
    split at h
    · rename_i heq
      subst heq
      simp only [Option.some.injEq] at h
      rwa [← h]
    · rename_i hne
      cases hget : assocGet parents r with
      | none => rw [hget] at h; simp at h
      | some u =>
        rw [hget] at h
        refine ih u (r :: acc) p ?_ h
        have hmem := assocGet_mem hget
        have hval := hwf (r, u) hmem
        unfold pathOk
        rw [hval, hacc]
        rfl

/-- With the parent-map invariants, reconstruction from any visited node
succeeds within the fuel `parents.length + 1`. -/
theorem recon_go_complete {T : Type} (buf : TfBuffer T) (time : Time) (fr : String)
    {vis : List String} {parents : List (String × String)}
    (htotal : ∀ v ∈ vis, v ≠ fr → ∃ u, assocGet parents v = some u)
    (hwf : ∀ pr ∈ parents, pr.1 ∈ vis ∧ pr.2 ∈ vis ∧ pr.1 ≠ fr)
    (hrank : ∀ pr ∈ parents, List.indexOf pr.1 vis < List.indexOf pr.2 vis) :
    ∀ fuel r acc, r ∈ vis → vis.length - List.indexOf r vis ≤ fuel →
      ∃ p, recon_go parents fr fuel r acc = some (some p) := by
  intro fuel
  induction fuel with
  | zero =>
    intro r acc hr hfuel
    have := List.indexOf_lt_length.mpr hr
    omega
  | succ fuel ih =>
    intro r acc hr hfuel
    by_cases hfr : r = fr
    · refine ⟨acc, ?_⟩
      unfold recon_go
      rw [if_pos hfr]
    · obtain ⟨u, hu⟩ := htotal r hr hfr
      have hmem := assocGet_mem hu
      have hrk := hrank (r, u) hmem
      have huvis := (hwf (r, u) hmem).2.1
      have hulen := List.indexOf_lt_length.mpr huvis
      obtain ⟨p, hp⟩ := ih u (r :: acc) huvis (by simp only at hrk; omega)
      refine ⟨p, ?_⟩
      unfold recon_go
      rw [if_neg hfr, hu]
      exact hp

/-- If the visited set is closed under valid edges, a valid path from a
visited node leads to a visited node. -/
theorem pathOk_closure {T : Type} (buf : TfBuffer T) (time : Time) (tgt : String)
    {vis : List String}
    (hclosed : ∀ u ∈ vis, ∀ v, validEdge buf time u v = true → v ∈ vis) :
    ∀ p u, u ∈ vis → pathOk buf time u p tgt = true → tgt ∈ vis := by
  intro p
  induction p with
  | nil =>
    intro u hu h
    unfold pathOk at h
    rw [beq_iff_eq] at h
    rwa [← h]
  | cons v rest ih =>
    intro u hu h
    unfold pathOk at h
    rw [Bool.and_eq_true] at h
    exact ih v (hclosed u hu v h.1) h.2

/-- The initial search state satisfies the invariant. -/
theorem searchInv_init {T : Type} (buf : TfBuffer T) (time : Time) (fr : String) :
    SearchInv buf time fr { frontier := [fr], visited := [fr], parents := [] } := by
  refine ⟨?_, ?_, ?_, ?_, ?_, ?_, ?_, ?_, ?_⟩
  · exact List.nodup_singleton fr
  · exact List.mem_singleton_self fr
  · intro x hx; exact hx
  · intro pr hpr; simp at hpr
  · intro v hv hne
    rcases List.mem_singleton.mp hv with rfl
    exact absurd rfl hne
  · intro pr hpr; simp at hpr
  · simp
  · intro u hu hufr
    exact absurd hu hufr
  · intro x hx
    exact Or.inl (List.mem_singleton.mp hx)

theorem searchMeasure_init {T : Type} (buf : TfBuffer T) (fr : String) :
    searchMeasure buf { frontier := [fr], visited := [fr], parents := [] } ≤
      (allNodes buf).length + 2 := by
  unfold searchMeasure
  dsimp only
  have h1 : ((allNodes buf).toFinset \ [fr].toFinset).card ≤
      (allNodes buf).toFinset.card :=
    Finset.card_le_card (Finset.sdiff_subset)
  have h2 : (allNodes buf).toFinset.card ≤ (allNodes buf).length :=
    List.toFinset_card_le _
  simp only [List.length_singleton]
  omega

/-- Correctness of `retrieve_transform_path`: a returned path is valid; if a
valid path exists one is returned; otherwise the result is
`CouldNotFindTransform` with the child-index snapshot. -/
theorem retrieve_transform_path_spec {T : Type} (buf : TfBuffer T)
    (fr tgt : String) (time : Time) :
    (∀ p, retrieve_transform_path buf fr tgt time = some (.ok p) →
      pathOk buf time fr p tgt = true) ∧
    ((∃ p, pathOk buf time fr p tgt = true) →
      ∃ p, retrieve_transform_path buf fr tgt time = some (.ok p) ∧
        pathOk buf time fr p tgt = true) ∧
    ((¬ ∃ p, pathOk buf time fr p tgt = true) →
      retrieve_transform_path buf fr tgt time =
        some (.error (.CouldNotFindTransform fr tgt buf.child_transform_index))) := by
  obtain ⟨hinvF, hmono, hdisc⟩ := search_loop_spec buf tgt time fr
    ((allNodes buf).length + 2)
    { frontier := [fr], visited := [fr], parents := [] }
    (searchInv_init buf time fr) (searchMeasure_init buf fr)
  set stF := search_loop buf tgt time ((allNodes buf).length + 2)
    { frontier := [fr], visited := [fr], parents := [] } with hstF
  have hret : retrieve_transform_path buf fr tgt time =
      (match recon_go stF.parents fr (stF.parents.length + 1) tgt [] with
       | none => none
       | some none =>
          some (.error (.CouldNotFindTransform fr tgt buf.child_transform_index))
       | some (some res) => some (.ok res)) := rfl
  have hwf_edges : ∀ pr ∈ stF.parents, validEdge buf time pr.2 pr.1 = true :=
    fun pr hpr => (hinvF.parents_wf pr hpr).2.2.1
  have hfr_vis : fr ∈ stF.visited := hmono fr (List.mem_singleton_self fr)
  have hsound : ∀ p, retrieve_transform_path buf fr tgt time = some (.ok p) →
      pathOk buf time fr p tgt = true := by
    intro p hp
    rw [hret] at hp
    cases hrec : recon_go stF.parents fr (stF.parents.length + 1) tgt [] with
    | none => rw [hrec] at hp; simp at hp
    | some o =>
      cases o with
      | none => rw [hrec] at hp; simp at hp
      | some q =>
        rw [hrec] at hp
        simp only [Option.some.injEq, Except.ok.injEq] at hp
        subst hp
        refine recon_go_sound buf time fr tgt hwf_edges _ tgt [] q ?_ hrec
        unfold pathOk
        exact beq_self_eq_true tgt
  refine ⟨hsound, ?_, ?_⟩
  · -- completeness
    rintro ⟨p0, hp0⟩
    have htgt_vis : tgt ∈ stF.visited := by
      rcases hdisc with h | hclosed
      · exact h
      · exact pathOk_closure buf time tgt hclosed p0 fr hfr_vis hp0
    have hcard := hinvF.card_bound
    obtain ⟨q, hq⟩ := @recon_go_complete T buf time fr
      stF.visited stF.parents
      hinvF.parents_total
      (fun pr hpr => ⟨(hinvF.parents_wf pr hpr).1, (hinvF.parents_wf pr hpr).2.1,
        (hinvF.parents_wf pr hpr).2.2.2⟩)
      hinvF.parents_rank
      (stF.parents.length + 1) tgt [] htgt_vis (by omega)
    refine ⟨q, ?_, ?_⟩
    · rw [hret, hq]
    · refine recon_go_sound buf time fr tgt hwf_edges _ tgt [] q ?_ hq
      unfold pathOk
      exact beq_self_eq_true tgt
  · -- no valid path
    intro hnone
    have htgt_fr : tgt ≠ fr := by
      intro heq
      subst heq
      refine hnone ⟨[], ?_⟩
      unfold pathOk
      exact beq_self_eq_true tgt
    have htgt_vis : tgt ∉ stF.visited := by
      intro hvis
      have hcard := hinvF.card_bound
      obtain ⟨q, hq⟩ := @recon_go_complete T buf time fr
        stF.visited stF.parents
        hinvF.parents_total
        (fun pr hpr => ⟨(hinvF.parents_wf pr hpr).1, (hinvF.parents_wf pr hpr).2.1,
          (hinvF.parents_wf pr hpr).2.2.2⟩)
        hinvF.parents_rank
        (stF.parents.length + 1) tgt [] hvis (by omega)
      refine hnone ⟨q, ?_⟩
      exact recon_go_sound buf time fr tgt hwf_edges _ tgt [] q
        (by unfold pathOk; exact beq_self_eq_true tgt) hq
    have hrec : recon_go stF.parents fr (stF.parents.length + 1) tgt [] = some none := by
      unfold recon_go
      rw [if_neg htgt_fr]
      cases hget : assocGet stF.parents tgt with
      | none => rfl
      | some u =>
        have hmem := assocGet_mem hget
        exact absurd (hinvF.parents_wf (tgt, u) hmem).1 htgt_vis
    rw [hret, hrec]

/-! ## Claims -/

/-- C10: for every buffer (including one in which the frame was never
inserted), looking up a frame against itself succeeds with the identity
transform (the chain of no transforms), stamped at the query time and
carrying the frame as both frame ids; it is never `CouldNotFindTransform`. -/
theorem C10_lookup_self_identity {T : Type} (ops : TransformOps T) (buf : TfBuffer T)
    (f : String) (t : Time) :
    lookup_transform ops buf f f t =
      some (.ok { header := { frame_id := f, stamp := t },
                  child_frame_id := f, transform := ops.identity }) := by
  have hsl : search_loop buf f t ((allNodes buf).length + 2)
      { frontier := [f], visited := [f], parents := [] } =
      { frontier := [f], visited := [f], parents := [] } := by
    show (if f = f then _ else _) = _
    rw [if_pos rfl]
  have hret : retrieve_transform_path buf f f t = some (.ok []) := by
    unfold retrieve_transform_path
    dsimp only
    rw [hsl]
    unfold recon_go
    rw [if_pos rfl]
  unfold lookup_transform
  rw [hret]
  rfl

/-- C2: `sub_time_and_time` does not compute `target - delta` once the
subtrahend's seconds field is zero or negative: at the repository's own test
input `t1 = (10, 345678901)`, `t2 = (-10, 345678901)` the code yields the
duration `(20, 691357802)` — ns-equivalent 20691357802 — while
`ns(t1) - ns(t2) = 20000000000`. -/
theorem C2_sub_time_and_time_bug :
    sub_time_and_time { sec := 10, nanosec := 345678901 }
        { sec := -10, nanosec := 345678901 } =
      { sec := 20, nanosec := 691357802 } ∧
    get_nanos (sub_time_and_time { sec := 10, nanosec := 345678901 }
        { sec := -10, nanosec := 345678901 }) = 20691357802 ∧
    time_as_ns_i64 { sec := 10, nanosec := 345678901 } -
        time_as_ns_i64 { sec := -10, nanosec := 345678901 } = 20000000000 ∧
    get_nanos (sub_time_and_time { sec := 10, nanosec := 345678901 }
        { sec := -10, nanosec := 345678901 }) ≠
      time_as_ns_i64 { sec := 10, nanosec := 345678901 } -
        time_as_ns_i64 { sec := -10, nanosec := 345678901 } := by
  refine ⟨by decide, by decide, by decide, by decide⟩

/-- C1 counterexample: inserting a sample whose ns-equivalent stamp already
exists does not replace the stored transform: the history grows to length 2
with two equal stamps, so it is no longer strictly sorted and the length does
change. -/
theorem C1_replace_counterexample :
    (add_to_buffer (add_to_buffer c1_empty c1_s1) c1_s2).transform_chain.length = 2 ∧
    chainKeys (add_to_buffer (add_to_buffer c1_empty c1_s1) c1_s2).transform_chain =
      [1000000000, 1000000000] ∧
    ¬ (chainKeys (add_to_buffer (add_to_buffer c1_empty c1_s1)
        c1_s2).transform_chain).Pairwise (· < ·) ∧
    (add_to_buffer (add_to_buffer c1_empty c1_s1) c1_s2).transform_chain.length ≠
      (add_to_buffer c1_empty c1_s1).transform_chain.length := by
  refine ⟨by decide, by decide, by decide, by decide⟩

/-- C1 (amended): `add_to_buffer` keeps the history sorted by stamp
ascending, non-strictly; a sample whose ns-equivalent stamp already occurs is
inserted alongside the existing one rather than replacing it, so — when the
eviction check does not trigger — the history length grows by one and the new
sample is stored. -/
theorem C1_add_to_buffer_sorted_insert {T : Type} (c : TfIndividualTransformChain T)
    (msg : TransformStamped T) (hs : chainSorted c) :
    chainSorted (add_to_buffer c msg) ∧
    (time_as_ns_i64 msg.header.stamp ∈ chainKeys c.transform_chain →
      time_as_ns_i64 ((insertedChain c msg).getLast
          (insertedChain_ne_nil c msg)).header.stamp ≤ get_nanos c.cache_duration →
      (add_to_buffer c msg).transform_chain.length = c.transform_chain.length + 1 ∧
      msg ∈ (add_to_buffer c msg).transform_chain) := by
  refine ⟨add_to_buffer_sorted hs, ?_⟩
  intro hdup hnoev
  have hrw := add_to_buffer_no_evict c msg hnoev
  rw [hrw]
  refine ⟨insertedChain_length c msg, ?_⟩
  unfold insertedChain
  refine (List.mem_insertIdx ?_).mpr (Or.inl rfl)
  have := bs_index_le_length (chainKeys c.transform_chain)
    (time_as_ns_i64 msg.header.stamp)
  rwa [chainKeys_length] at this

/-- C1 witness: the amended statement at a concrete history. -/
theorem C1_add_to_buffer_sorted_insert_witness :
    chainSorted (add_to_buffer (add_to_buffer c1_empty c1_s1) c1_s2) ∧
    (add_to_buffer (add_to_buffer c1_empty c1_s1) c1_s2).transform_chain.length =
      (add_to_buffer c1_empty c1_s1).transform_chain.length + 1 ∧
    c1_s2 ∈ (add_to_buffer (add_to_buffer c1_empty c1_s1) c1_s2).transform_chain := by
  have h := C1_add_to_buffer_sorted_insert (add_to_buffer c1_empty c1_s1) c1_s2
    (by decide)
  obtain ⟨h1, h2⟩ := h
  obtain ⟨h3, h4⟩ := h2 (by decide) (by decide)
  exact ⟨h1, h3, h4⟩

/-- C7 counterexample: on a static edge the code returns the stored sample
with the greatest stamp, not the most recently inserted one: after inserting
a sample stamped 2 s and then one stamped 1 s, every query returns the 2 s
sample although the 1 s sample was inserted last (and differs). -/
theorem C7_static_counterexample :
    get_closest_transform intOps (add_to_buffer (add_to_buffer c7_empty c7_sA) c7_sB)
        { sec := 3, nanosec := 0 } = some (.ok c7_sA) ∧
    get_closest_transform intOps (add_to_buffer (add_to_buffer c7_empty c7_sA) c7_sB)
        { sec := 1, nanosec := 0 } = some (.ok c7_sA) ∧
    c7_sA ≠ c7_sB := by
  refine ⟨by decide, by decide, by decide⟩

/-- C7 (amended): on a static non-empty history, `get_closest_transform`
returns, for every query time, `Ok` of the last stored sample — the sample
with the greatest stamp under sorted insertion — which is the most recently
inserted sample only when insertions arrive in nondecreasing stamp order. -/
theorem C7_static_returns_last {T : Type} (ops : TransformOps T)
    (c : TfIndividualTransformChain T) (time : Time) (hst : c.static_tf = true) :
    get_closest_transform ops c time = c.transform_chain.getLast?.map .ok ∧
    (chainSorted c → ∀ e ∈ c.transform_chain, ∀ hne : c.transform_chain ≠ [],
      time_as_ns_i64 e.header.stamp ≤
        time_as_ns_i64 ((c.transform_chain.getLast hne).header.stamp)) := by
  refine ⟨get_closest_transform_static ops c time hst, ?_⟩
  intro hs e he hne
  obtain ⟨j, hj, hget⟩ := List.mem_iff_getElem.mp he
  have h1 := chainKeys_getD c.transform_chain hj
  have h2 := chainKeys_getD_last c.transform_chain hne
  have h3 : (chainKeys c.transform_chain).getD j 0 ≤
      (chainKeys c.transform_chain).getD (c.transform_chain.length - 1) 0 := by
    refine keysSorted_getD_mono hs ?_ ?_
    · omega
    · rw [chainKeys_length]
      omega
  rw [h1, h2, hget] at h3
  exact h3

/-- C7 witness: the amended statement at the concrete out-of-order history. -/
theorem C7_static_returns_last_witness :
    get_closest_transform intOps (add_to_buffer (add_to_buffer c7_empty c7_sA) c7_sB)
        { sec := 5, nanosec := 0 } =
      (add_to_buffer (add_to_buffer c7_empty c7_sA) c7_sB).transform_chain.getLast?.map
        .ok := by
  exact (C7_static_returns_last intOps
    (add_to_buffer (add_to_buffer c7_empty c7_sA) c7_sB)
    { sec := 5, nanosec := 0 } (by decide)).1

/-- C3: at samples stamped 0.1 s and 0.3 s and a query at 0.2 s the code
interpolates with weight 1/4 instead of the specified
`1 - (t - stamp1)/(stamp2 - stamp1) = 1/2`, because `sub_time_and_time` adds
the older stamp's nanoseconds when its seconds field is not positive.  The
probe operations return the weight itself as the payload. -/
theorem C3_interpolation_weight_bug :
    (∃ r, get_closest_transform weightProbeOps c3_chain c3_t = some (.ok r) ∧
      r.transform = 1 / 4 ∧ r.header.frame_id = "p" ∧ r.child_frame_id = "c" ∧
      r.header.stamp = c3_t) ∧
    (1 : ℚ) - ((time_as_ns_i64 c3_t -
          time_as_ns_i64 c3_e1.header.stamp : Int) : ℚ) /
        ((time_as_ns_i64 c3_e2.header.stamp -
          time_as_ns_i64 c3_e1.header.stamp : Int) : ℚ) = 1 / 2 ∧
    ((1 : ℚ) / 4) ≠ 1 / 2 := by
  refine ⟨?_, ?_, by norm_num⟩
  · refine ⟨to_transform_stamped
      ((1 : ℚ) - ((300000000 : Int) : ℚ) / ((400000000 : Int) : ℚ)) "p" "c" c3_t,
      ?_, ?_, rfl, rfl, rfl⟩
    · rfl
    · show (1 : ℚ) - ((300000000 : Int) : ℚ) / ((400000000 : Int) : ℚ) = 1 / 4
      norm_num
  · norm_num [c3_e1, c3_e2, c3_t, time_as_ns_i64, BILLION]

/-- C5: after `add_to_buffer` on a sorted non-static history, when the newest
stamp exceeds the (nonnegative) cache duration: every kept sample is at least
`newest - cache_duration` (samples strictly older are dropped), the newest
minus the oldest kept stamp is at most the cache duration, and a sample
stamped exactly `newest - cache_duration` is kept; the reference is the
newest stored stamp, not wall-clock time. -/
theorem C5_retention_bound {T : Type} (c : TfIndividualTransformChain T)
    (msg : TransformStamped T) (hs : chainSorted c) (hstatic : c.static_tf = false)
    (hc0 : 0 ≤ get_nanos c.cache_duration)
    (hev : get_nanos c.cache_duration < time_as_ns_i64
      ((insertedChain c msg).getLast (insertedChain_ne_nil c msg)).header.stamp) :
    (∀ e ∈ (add_to_buffer c msg).transform_chain,
      time_as_ns_i64 ((insertedChain c msg).getLast
          (insertedChain_ne_nil c msg)).header.stamp - get_nanos c.cache_duration ≤
        time_as_ns_i64 e.header.stamp) ∧
    (∃ hne2 : (add_to_buffer c msg).transform_chain ≠ [],
      time_as_ns_i64 (((add_to_buffer c msg).transform_chain.getLast hne2).header.stamp) -
        time_as_ns_i64 (((add_to_buffer c msg).transform_chain.head hne2).header.stamp) ≤
        get_nanos c.cache_duration) ∧
    ((∃ e ∈ insertedChain c msg,
        time_as_ns_i64 e.header.stamp =
          time_as_ns_i64 ((insertedChain c msg).getLast
            (insertedChain_ne_nil c msg)).header.stamp - get_nanos c.cache_duration) →
      ∃ e ∈ (add_to_buffer c msg).transform_chain,
        time_as_ns_i64 e.header.stamp =
          time_as_ns_i64 ((insertedChain c msg).getLast
            (insertedChain_ne_nil c msg)).header.stamp - get_nanos c.cache_duration) := by
  obtain ⟨hA, ⟨hne2, hlast⟩, hC⟩ := add_to_buffer_retention c msg hs hc0 hev
  refine ⟨hA, ⟨hne2, ?_⟩, hC⟩
  have hhead := hA ((add_to_buffer c msg).transform_chain.head hne2)
    (List.head_mem hne2)
  rw [hlast]
  omega

/-- C5 witness: with cache duration 1 s and samples at 0 s, 1 s, 2 s the
retention properties hold after inserting the 2 s sample. -/
theorem C5_retention_bound_witness :
    (∀ e ∈ (add_to_buffer c5_base c5_msg).transform_chain,
      time_as_ns_i64 ((insertedChain c5_base c5_msg).getLast
          (insertedChain_ne_nil c5_base c5_msg)).header.stamp -
        get_nanos c5_base.cache_duration ≤ time_as_ns_i64 e.header.stamp) ∧
    (∃ hne2 : (add_to_buffer c5_base c5_msg).transform_chain ≠ [],
      time_as_ns_i64 (((add_to_buffer c5_base c5_msg).transform_chain.getLast
          hne2).header.stamp) -
        time_as_ns_i64 (((add_to_buffer c5_base c5_msg).transform_chain.head
          hne2).header.stamp) ≤ get_nanos c5_base.cache_duration) ∧
    ((∃ e ∈ insertedChain c5_base c5_msg,
        time_as_ns_i64 e.header.stamp =
          time_as_ns_i64 ((insertedChain c5_base c5_msg).getLast
            (insertedChain_ne_nil c5_base c5_msg)).header.stamp -
            get_nanos c5_base.cache_duration) →
      ∃ e ∈ (add_to_buffer c5_base c5_msg).transform_chain,
        time_as_ns_i64 e.header.stamp =
          time_as_ns_i64 ((insertedChain c5_base c5_msg).getLast
            (insertedChain_ne_nil c5_base c5_msg)).header.stamp -
            get_nanos c5_base.cache_duration) :=
  C5_retention_bound c5_base c5_msg (by decide) (by decide) (by decide) (by decide)

/-- C6: on a strictly sorted non-static non-empty history with a nonzero
query time, a query strictly before the first stamp fails `LookupInPast`,
strictly after the last stamp fails `LookupInFuture`, and an exact stamp hit
returns that sample; and `lookup_transform` returns exactly the error of the
path search or of the first failing edge sample, unchanged, and returns `Ok`
only when the path search and every edge sample along the path succeeded
(no partial answers). -/
theorem C6_range_errors_and_propagation {T : Type} (ops : TransformOps T) :
    (∀ (c : TfIndividualTransformChain T) (time : Time),
      c.static_tf = false → ∀ hne : c.transform_chain ≠ [],
      time_as_ns_i64 time ≠ 0 → chainStrictSorted c →
      (time_as_ns_i64 time <
          time_as_ns_i64 ((c.transform_chain.head hne).header.stamp) →
        get_closest_transform ops c time =
          some (.error (.AttemptedLookupInPast time (c.transform_chain.head hne)))) ∧
      (time_as_ns_i64 ((c.transform_chain.getLast hne).header.stamp) <
          time_as_ns_i64 time →
        get_closest_transform ops c time =
          some (.error (.AttemptedLookUpInFuture (c.transform_chain.getLast hne) time))) ∧
      (∀ i, ∀ hi : i < c.transform_chain.length,
        time_as_ns_i64 (c.transform_chain[i].header.stamp) = time_as_ns_i64 time →
        get_closest_transform ops c time = some (.ok c.transform_chain[i]))) ∧
    (∀ (buf : TfBuffer T) (fr tgt : String) (time : Time) (e : TfError T),
      lookup_transform ops buf fr tgt time = some (.error e) →
      retrieve_transform_path buf fr tgt time = some (.error e) ∨
      ∃ p, retrieve_transform_path buf fr tgt time = some (.ok p) ∧
        collect_transforms ops buf time fr p [] = some (.error e)) ∧
    (∀ (buf : TfBuffer T) (fr tgt : String) (time : Time) (r : TransformStamped T),
      lookup_transform ops buf fr tgt time = some (.ok r) →
      ∃ p tfs, retrieve_transform_path buf fr tgt time = some (.ok p) ∧
        collect_transforms ops buf time fr p [] = some (.ok tfs) ∧
        r = { header := { frame_id := fr, stamp := time }, child_frame_id := tgt,
              transform := chain_transforms ops tfs }) := by
  refine ⟨?_, ?_, ?_⟩
  · intro c time hst hne hns hss
    have hsorted : chainSorted c := List.Pairwise.imp le_of_lt hss
    refine ⟨?_, ?_, ?_⟩
    · intro hlt
      exact get_closest_transform_past ops hst hns hne hsorted hlt
    · intro hgt
      exact get_closest_transform_future ops hst hns hne hsorted hgt
    · intro i hi heq
      exact get_closest_transform_exact ops hst hns hss hi heq
  · intro buf fr tgt time e h
    unfold lookup_transform at h
    cases hr : retrieve_transform_path buf fr tgt time with
    | none => rw [hr] at h; simp at h
    | some o =>
      cases o with
      | error e2 =>
        rw [hr] at h
        dsimp only at h
        simp only [Option.some.injEq, Except.error.injEq] at h
        subst h
        exact Or.inl rfl
      | ok p =>
        rw [hr] at h
        dsimp only at h
        cases hc : collect_transforms ops buf time fr p [] with
        | none => rw [hc] at h; simp at h
        | some o2 =>
          cases o2 with
          | error e2 =>
            rw [hc] at h
            dsimp only at h
            simp only [Option.some.injEq, Except.error.injEq] at h
            subst h
            exact Or.inr ⟨p, rfl, hc⟩
          | ok tfs =>
            rw [hc] at h
            dsimp only at h
            simp at h
  · intro buf fr tgt time r h
    unfold lookup_transform at h
    cases hr : retrieve_transform_path buf fr tgt time with
    | none => rw [hr] at h; simp at h
    | some o =>
      cases o with
      | error e2 => rw [hr] at h; simp at h
      | ok p =>
        rw [hr] at h
        dsimp only at h
        cases hc : collect_transforms ops buf time fr p [] with
        | none => rw [hc] at h; simp at h
        | some o2 =>
          cases o2 with
          | error e2 => rw [hc] at h; simp at h
          | ok tfs =>
            rw [hc] at h
            dsimp only at h
            simp only [Option.some.injEq, Except.ok.injEq] at h
            exact ⟨p, tfs, rfl, hc, h.symm⟩

/-- C6 witness: the three range cases at a concrete two-sample history and
the propagation decomposition at a concrete failing lookup. -/
theorem C6_range_errors_and_propagation_witness :
    (get_closest_transform intOps c6_chain { sec := 0, nanosec := 5 } =
      some (.error (.AttemptedLookupInPast { sec := 0, nanosec := 5 }
        (c6_chain.transform_chain.head (by decide))))) ∧
    (get_closest_transform intOps c6_chain { sec := 3, nanosec := 0 } =
      some (.error (.AttemptedLookUpInFuture
        (c6_chain.transform_chain.getLast (by decide)) { sec := 3, nanosec := 0 }))) ∧
    (get_closest_transform intOps c6_chain { sec := 1, nanosec := 0 } =
      some (.ok (c6_chain.transform_chain.get ⟨0, by decide⟩))) ∧
    (retrieve_transform_path (TfBuffer.new Int) "a" "b" { sec := 1, nanosec := 0 } =
        some (.error (.CouldNotFindTransform "a" "b" [])) ∨
      ∃ p, retrieve_transform_path (TfBuffer.new Int) "a" "b" { sec := 1, nanosec := 0 } =
          some (.ok p) ∧
        collect_transforms intOps (TfBuffer.new Int) { sec := 1, nanosec := 0 } "a" p [] =
          some (.error (.CouldNotFindTransform "a" "b" []))) := by
  have h := C6_range_errors_and_propagation intOps
  obtain ⟨h1, h2, h3⟩ := h
  have hc := h1 c6_chain
  refine ⟨?_, ?_, ?_, ?_⟩
  · exact (hc { sec := 0, nanosec := 5 } (by decide) (by decide) (by decide)
      (by decide)).1 (by decide)
  · exact (hc { sec := 3, nanosec := 0 } (by decide) (by decide) (by decide)
      (by decide)).2.1 (by decide)
  · exact (hc { sec := 1, nanosec := 0 } (by decide) (by decide) (by decide)
      (by decide)).2.2 0 (by decide) (by decide)
  · exact h2 (TfBuffer.new Int) "a" "b" { sec := 1, nanosec := 0 }
      (.CouldNotFindTransform "a" "b" []) (by decide)

/-- C4: the path search is sound (every returned path is a chain of valid
edges after `fr` ending at `tgt`) and complete (if a valid path exists, one
is returned; otherwise the result is `CouldNotFindTransform` carrying the
child-index snapshot). -/
theorem C4_path_search_correct {T : Type} (buf : TfBuffer T) (fr tgt : String)
    (time : Time) :
    (∀ p, retrieve_transform_path buf fr tgt time = some (.ok p) →
      pathOk buf time fr p tgt = true) ∧
    ((∃ p, pathOk buf time fr p tgt = true) →
      ∃ p, retrieve_transform_path buf fr tgt time = some (.ok p) ∧
        pathOk buf time fr p tgt = true) ∧
    ((¬ ∃ p, pathOk buf time fr p tgt = true) →
      retrieve_transform_path buf fr tgt time =
        some (.error (.CouldNotFindTransform fr tgt buf.child_transform_index))) :=
  retrieve_transform_path_spec buf fr tgt time

/-- C4 witness: on a one-edge buffer a valid path is found; on the empty
buffer with distinct frames the search reports `CouldNotFindTransform`. -/
theorem C4_path_search_correct_witness :
    (∃ p, retrieve_transform_path c4_buf "a" "b" { sec := 1, nanosec := 0 } =
        some (.ok p) ∧
      pathOk c4_buf { sec := 1, nanosec := 0 } "a" p "b" = true) ∧
    retrieve_transform_path (TfBuffer.new Int) "a" "b" { sec := 1, nanosec := 0 } =
      some (.error (.CouldNotFindTransform "a" "b" [])) := by
  constructor
  · exact (C4_path_search_correct c4_buf "a" "b" { sec := 1, nanosec := 0 }).2.1
      ⟨["b"], by decide⟩
  · refine (C4_path_search_correct (TfBuffer.new Int) "a" "b"
      { sec := 1, nanosec := 0 }).2.2 ?_
    rintro ⟨p, hp⟩
    cases p with
    | nil => simp [pathOk] at hp
    | cons v rest =>
      unfold pathOk at hp
      have hv : validEdge (TfBuffer.new Int) { sec := 1, nanosec := 0 } "a" v = false := by
        unfold validEdge childrenOf assocGet TfBuffer.new TfBuffer.new_with_duration
        simp
      rw [hv] at hp
      simp at hp

/-- C8: time-travel lookup propagates the error of either inner lookup and,
when both succeed, returns the composition of the target-side lookup with the
inverse of the source-side lookup, stamped `t1` with frames `fr → tgt`. -/
theorem C8_time_travel_composition {T : Type} (ops : TransformOps T)
    (buf : TfBuffer T) (tgt fr fixed_frame : String) (time1 time2 : Time) :
    (∀ e, lookup_transform ops buf fr fixed_frame time1 = some (.error e) →
      lookup_transform_with_time_travel ops buf tgt time2 fr time1 fixed_frame =
        some (.error e)) ∧
    (∀ a e, lookup_transform ops buf fr fixed_frame time1 = some (.ok a) →
      lookup_transform ops buf tgt fixed_frame time2 = some (.error e) →
      lookup_transform_with_time_travel ops buf tgt time2 fr time1 fixed_frame =
        some (.error e)) ∧
    (∀ a b, lookup_transform ops buf fr fixed_frame time1 = some (.ok a) →
      lookup_transform ops buf tgt fixed_frame time2 = some (.ok b) →
      (∀ x, ops.compose ops.identity x = x) →
      lookup_transform_with_time_travel ops buf tgt time2 fr time1 fixed_frame =
        some (.ok { header := { frame_id := fr, stamp := time1 },
                    child_frame_id := tgt,
                    transform := ops.compose b.transform
                      (ops.inverse a.transform) })) := by
  refine ⟨?_, ?_, ?_⟩
  · intro e h1
    unfold lookup_transform_with_time_travel
    rw [h1]
  · intro a e h1 h2
    unfold lookup_transform_with_time_travel
    rw [h1, h2]
  · intro a b h1 h2 hunit
    unfold lookup_transform_with_time_travel
    rw [h1, h2]
    show (some (Except.ok (to_transform_stamped
      (ops.compose (ops.compose ops.identity b.transform)
        (ops.inverse a.transform)) fr tgt time1)) :
      Option (Except (TfError T) (TransformStamped T))) = _
    rw [hunit b.transform]
    rfl

/-- C8 witness: with `fr = tgt = fixed`, both inner lookups succeed with the
identity payload and the time-travel lookup returns the composed result
stamped `t1`; on distinct absent frames the inner error is propagated. -/
theorem C8_time_travel_composition_witness :
    lookup_transform_with_time_travel intOps (TfBuffer.new Int) "a"
        { sec := 2, nanosec := 0 } "a" { sec := 1, nanosec := 0 } "a" =
      some (.ok { header := { frame_id := "a", stamp := { sec := 1, nanosec := 0 } },
                  child_frame_id := "a",
                  transform := intOps.compose (0 : Int) (intOps.inverse (0 : Int)) }) ∧
    lookup_transform_with_time_travel intOps (TfBuffer.new Int) "c"
        { sec := 2, nanosec := 0 } "a" { sec := 1, nanosec := 0 } "b" =
      some (.error (.CouldNotFindTransform "a" "b" [])) := by
  constructor
  · exact (C8_time_travel_composition intOps (TfBuffer.new Int) "a" "a" "a"
      { sec := 1, nanosec := 0 } { sec := 2, nanosec := 0 }).2.2
      { header := { frame_id := "a", stamp := { sec := 1, nanosec := 0 } },
        child_frame_id := "a", transform := 0 }
      { header := { frame_id := "a", stamp := { sec := 2, nanosec := 0 } },
        child_frame_id := "a", transform := 0 }
      (by decide) (by decide) (fun x => zero_add x)
  · exact (C8_time_travel_composition intOps (TfBuffer.new Int) "c" "a" "b"
      { sec := 1, nanosec := 0 } { sec := 2, nanosec := 0 }).1
      (.CouldNotFindTransform "a" "b" []) (by decide)

theorem edgePresent_add_self {T : Type} (buf : TfBuffer T) (tr : TransformStamped T)
    (s : Bool) : edgePresent (add_transform buf tr s) tr.header.frame_id
      tr.child_frame_id := by
  constructor
  · unfold add_transform childrenOf indexInsertChild
    dsimp only
    rw [assocGet_assocSet_self]
    exact mem_setInsert_self _ _
  · unfold add_transform
    dsimp only
    rw [assocGet_assocSet_self]
    rfl

theorem edgePresent_add_mono {T : Type} (buf : TfBuffer T) (tr : TransformStamped T)
    (s : Bool) {p c : String} (h : edgePresent buf p c) :
    edgePresent (add_transform buf tr s) p c := by
  obtain ⟨h1, h2⟩ := h
  constructor
  · unfold add_transform childrenOf indexInsertChild
    dsimp only
    by_cases hp : p = tr.header.frame_id
    · subst hp
      rw [assocGet_assocSet_self]
      exact mem_setInsert_of_mem _ _ _ h1
    · rw [assocGet_assocSet_ne _ _ _ hp]
      exact h1
  · unfold add_transform
    dsimp only
    by_cases hk : ({ child := c, parent := p } : TfGraphNode) =
        { child := tr.child_frame_id, parent := tr.header.frame_id }
    · rw [hk, assocGet_assocSet_self]
      rfl
    · rw [assocGet_assocSet_ne _ _ _ hk]
      exact h2

theorem edgePresent_handle_incoming_mono {T : Type} (ops : TransformOps T)
    (l : List (TransformStamped T)) (s : Bool) :
    ∀ (buf : TfBuffer T) (p c : String), edgePresent buf p c →
      edgePresent (handle_incoming_transforms ops buf l s) p c := by
  induction l with
  | nil => intro buf p c h; exact h
  | cons t ts ih =>
    intro buf p c h
    exact ih _ p c (edgePresent_add_mono _ _ _ (edgePresent_add_mono _ _ _ h))

theorem qtransform_within_refl (a : QTransform) (eps : ℚ) (h : 0 ≤ eps) :
    qtransform_within a a eps := by
  unfold qtransform_within
  simp [h]

/-- C9: after `handle_incoming_transforms`, every batch element's edge is
present in both directions (child set and edge history), and — in the exact
rational model — a transform with unit rotation composed with its ingested
inverse is the identity, within 1e-9, at the same stamp. -/
theorem C9_inverse_closure {T : Type} (ops : TransformOps T)
    (batch : List (TransformStamped T)) (buf : TfBuffer T) (static_tf : Bool) :
    (∀ tr ∈ batch,
      edgePresent (handle_incoming_transforms ops buf batch static_tf)
        tr.header.frame_id tr.child_frame_id ∧
      edgePresent (handle_incoming_transforms ops buf batch static_tf)
        tr.child_frame_id tr.header.frame_id) ∧
    (∀ tr : TransformStamped QTransform, unitQuat tr.transform.rotation →
      (get_inverse qOps tr).header.stamp = tr.header.stamp ∧
      qtransform_within
        (qtransform_compose tr.transform ((get_inverse qOps tr).transform))
        qtransform_identity (1 / 1000000000)) := by
  constructor
  · induction batch generalizing buf with
    | nil => intro tr htr; simp at htr
    | cons t ts ih =>
      intro tr htr
      have hstep : handle_incoming_transforms ops buf (t :: ts) static_tf =
          handle_incoming_transforms ops
            (add_transform (add_transform buf t static_tf) (get_inverse ops t) static_tf)
            ts static_tf := rfl
      rw [hstep]
      rcases List.mem_cons.mp htr with rfl | htr'
      · constructor
        · refine edgePresent_handle_incoming_mono ops ts static_tf _ _ _ ?_
          exact edgePresent_add_mono _ _ _ (edgePresent_add_self buf tr static_tf)
        · refine edgePresent_handle_incoming_mono ops ts static_tf _ _ _ ?_
          exact edgePresent_add_self (add_transform buf tr static_tf)
            (get_inverse ops tr) static_tf
      · exact ih _ tr htr'
  · intro tr h
    refine ⟨rfl, ?_⟩
    have hco : qtransform_compose tr.transform ((get_inverse qOps tr).transform) =
        qtransform_identity := qtransform_compose_inverse tr.transform h
    rw [hco]
    exact qtransform_within_refl _ _ (by norm_num)

/-- C9 witness: a one-element batch over the rational model: both directed
edges are present afterwards, and the unit-rotation sample composes with its
inverse to the identity within 1e-9. -/
theorem C9_inverse_closure_witness :
    (edgePresent (handle_incoming_transforms qOps (TfBuffer.new QTransform)
        [c9_tr] true) "a" "b" ∧
      edgePresent (handle_incoming_transforms qOps (TfBuffer.new QTransform)
        [c9_tr] true) "b" "a") ∧
    ((get_inverse qOps c9_tr).header.stamp = c9_tr.header.stamp ∧
      qtransform_within
        (qtransform_compose c9_tr.transform ((get_inverse qOps c9_tr).transform))
        qtransform_identity (1 / 1000000000)) := by
  have h := C9_inverse_closure qOps [c9_tr] (TfBuffer.new QTransform) true
  refine ⟨?_, ?_⟩
  · have h1 := h.1 c9_tr (List.mem_singleton_self c9_tr)
    exact h1
  · refine h.2 c9_tr ?_
    show (0 : ℚ) ^ 2 + 0 ^ 2 + 0 ^ 2 + 1 ^ 2 = 1
    norm_num
